import Mathlib

/-!
Verification of the MagiTerm streaming core.

This file embeds, in Lean, the data model and operations of:
* `src/lib/ai-streaming.ts` — the `JsonFieldStreamDecoder` class, a per-field
  state machine that extracts one named string field from a streamed JSON text;
* `src/app/api/terminal/stream/route.ts` — the execute-stream pipeline
  (`createExecuteStream`, `flushEvents`, `finalize`, `finalizeCommandRecord`,
  `appendErrorText`);
* `src/app/api/ai/generate/stream/route.ts` — the raw-text-producer pipeline
  (`POST`, `finalPayload`).

JavaScript strings are modelled as `List Char` (Unicode scalar values); the
decoder walks them one character at a time exactly as the source does.
-/

set_option maxHeartbeats 1000000

namespace MagiTerm

/-! ### Stages and state of `JsonFieldStreamDecoder` (src/lib/ai-streaming.ts) -/

inductive FieldStage where
  | SearchingKey
  | AfterKey
  | WaitingForStringStart
  | Collecting
  | Complete
deriving DecidableEq

structure DecoderState where
  stage : FieldStage
  keyIndex : Nat
  collectingBuffer : List Char
  escapeActive : Bool
  unicodeDigitsRemaining : Nat
  lastEmittedLength : Nat
  currentValue : List Char
deriving DecidableEq

/-- Initial state of a freshly constructed decoder. -/
def initialDecoderState : DecoderState :=
  ⟨.SearchingKey, 0, [], false, 0, 0, []⟩

/-- Notifications delivered through the registered listeners
(`onDelta` and `onComplete`). -/
inductive DecoderEvent where
  | delta (field delta fullValue : List Char)
  | complete (field value : List Char)
deriving DecidableEq

/-- The literal key token searched for: `"field"` including both quotes
(`this.keyPattern` in the source). -/
def keyPattern (field : List Char) : List Char :=
  '"' :: field ++ ['"']

/-- The character class of the JavaScript regular expression `/\s/`
(`WHITESPACE_REGEX` in the source). -/
def isJsWhitespace (c : Char) : Bool :=
  c.toNat = 9 ∨ c.toNat = 10 ∨ c.toNat = 11 ∨ c.toNat = 12 ∨ c.toNat = 13 ∨
  c.toNat = 32 ∨ c.toNat = 0xa0 ∨ c.toNat = 0x1680 ∨
  (0x2000 ≤ c.toNat ∧ c.toNat ≤ 0x200a) ∨ c.toNat = 0x2028 ∨ c.toNat = 0x2029 ∨
  c.toNat = 0x202f ∨ c.toNat = 0x205f ∨ c.toNat = 0x3000 ∨ c.toNat = 0xfeff

/-! ### A model of `JSON.parse` applied to a quoted string literal

The source calls `JSON.parse` on the collecting buffer wrapped in quotes.
`jsonUnescape b` models the result of `JSON.parse` applied to the text
`quote ++ b ++ quote`: `some s` when that call succeeds with value `s`,
`none` when it throws.  One deviation: JavaScript strings are UTF-16 and
`JSON.parse` accepts `\uXXXX` escapes denoting lone surrogates; the
`Char`-based model rejects surrogate escapes.  No claim below depends on
surrogate escapes. -/

/-- Decoded meaning of a single-character escape `\c` in a JSON string
literal, `none` when `\c` is not a legal escape. -/
def escCharMeaning (c : Char) : Option Char :=
  if c = '"' then some '"'
  else if c = '\\' then some '\\'
  else if c = '/' then some '/'
  else if c = 'b' then some (Char.ofNat 8)
  else if c = 'f' then some (Char.ofNat 12)
  else if c = 'n' then some (Char.ofNat 10)
  else if c = 'r' then some (Char.ofNat 13)
  else if c = 't' then some (Char.ofNat 9)
  else none

/-- Value of a hexadecimal digit character, `none` for non-hex characters. -/
def hexDigitVal (c : Char) : Option Nat :=
  if '0' ≤ c ∧ c ≤ '9' then some (c.toNat - 48)
  else if 'a' ≤ c ∧ c ≤ 'f' then some (c.toNat - 87)
  else if 'A' ≤ c ∧ c ≤ 'F' then some (c.toNat - 55)
  else none

/-- Combined value of four hexadecimal digit characters. -/
def hexVal4 (d1 d2 d3 d4 : Char) : Option Nat :=
  match hexDigitVal d1, hexDigitVal d2, hexDigitVal d3, hexDigitVal d4 with
  | some a, some b, some c, some d => some (4096 * a + 256 * b + 16 * c + d)
  | _, _, _, _ => none

/-- Result of `JSON.parse` on the buffer wrapped in double quotes: the body
is a sequence of non-control, non-quote, non-backslash characters and
escape sequences. -/
def jsonUnescape : List Char → Option (List Char)
  | [] => some []
  | c :: rest =>
    if c = '\\' then
      match rest with
      | [] => none
      | e :: rest2 =>
        if e = 'u' then
          match rest2 with
          | d1 :: d2 :: d3 :: d4 :: rest3 =>
            match hexVal4 d1 d2 d3 d4 with
            | some n =>
              if 0xD800 ≤ n ∧ n ≤ 0xDFFF then none
              else (jsonUnescape rest3).map (fun t => Char.ofNat n :: t)
            | none => none
          | _ => none
        else
          match escCharMeaning e with
          | some m => (jsonUnescape rest2).map (fun t => m :: t)
          | none => none
    else if c = '"' ∨ c.toNat < 32 then none
    else (jsonUnescape rest).map (fun t => c :: t)

/-! ### The decoder's methods -/

/-- Method `emitDelta`: try to decode the buffer; when the decoded value is
longer than what was already delivered, emit the newly revealed suffix. -/
def emitDelta (field : List Char) (s : DecoderState) :
    DecoderState × List DecoderEvent :=
  if s.collectingBuffer = [] then (s, [])
  else
    match jsonUnescape s.collectingBuffer with
    | some decoded =>
      if s.lastEmittedLength < decoded.length then
        ({ s with lastEmittedLength := decoded.length, currentValue := decoded },
         [.delta field (decoded.drop s.lastEmittedLength) decoded])
      else (s, [])
    | none => (s, [])

/-- Common to every exit of `finalizeValue` (its `finally` block): enter the
`Complete` stage and clear the scratch state. -/
def completeAndClear (s : DecoderState) : DecoderState :=
  { s with stage := .Complete, collectingBuffer := [], escapeActive := false,
           unicodeDigitsRemaining := 0 }

/-- Method `finalizeValue`: on the closing unescaped quote, decode the buffer,
emit any residual delta, emit the completion notification, then (in the
`finally` block) move to `Complete` and clear the scratch state.  A decode
failure is swallowed and no notification fires. -/
def finalizeValue (field : List Char) (s : DecoderState) :
    DecoderState × List DecoderEvent :=
  match jsonUnescape s.collectingBuffer with
  | some decoded =>
    if s.lastEmittedLength < decoded.length then
      let s1 := { s with lastEmittedLength := decoded.length,
                         currentValue := decoded }
      let evs :=
        if 0 < (decoded.drop s.lastEmittedLength).length then
          [DecoderEvent.delta field (decoded.drop s.lastEmittedLength) decoded]
        else []
      (completeAndClear s1, evs ++ [.complete field decoded])
    else (completeAndClear s, [.complete field decoded])
  | none => (completeAndClear s, [])

/-- Method `processKeyChar` (stage `SearchingKey`). -/
def processKeyChar (field : List Char) (s : DecoderState) (c : Char) :
    DecoderState :=
  if (keyPattern field)[s.keyIndex]? = some c then
    if s.keyIndex + 1 = (keyPattern field).length then
      { s with stage := .AfterKey, keyIndex := 0 }
    else { s with keyIndex := s.keyIndex + 1 }
  else
    { s with keyIndex := if (keyPattern field)[0]? = some c then 1 else 0 }

/-- Method `resetSearchAndReprocess`: fall back to `SearchingKey` and re-run
the same character through `processKeyChar`. -/
def resetSearchAndReprocess (field : List Char) (s : DecoderState) (c : Char) :
    DecoderState :=
  processKeyChar field { s with stage := .SearchingKey, keyIndex := 0 } c

/-- Method `processPostKeyChar` (stage `AfterKey`). -/
def processPostKeyChar (field : List Char) (s : DecoderState) (c : Char) :
    DecoderState :=
  if c = ':' then { s with stage := .WaitingForStringStart }
  else if isJsWhitespace c then s
  else resetSearchAndReprocess field s c

/-- Method `processStringStartChar` (stage `WaitingForStringStart`). -/
def processStringStartChar (field : List Char) (s : DecoderState) (c : Char) :
    DecoderState :=
  if isJsWhitespace c then s
  else if c = '"' then
    { s with stage := .Collecting, collectingBuffer := [], escapeActive := false,
             unicodeDigitsRemaining := 0, lastEmittedLength := 0 }
  else resetSearchAndReprocess field s c

/-- Method `processValueChar` (stage `Collecting`). -/
def processValueChar (field : List Char) (s : DecoderState) (c : Char) :
    DecoderState × List DecoderEvent :=
  if 0 < s.unicodeDigitsRemaining then
    let s1 := { s with collectingBuffer := s.collectingBuffer ++ [c],
                       unicodeDigitsRemaining := s.unicodeDigitsRemaining - 1 }
    if s1.unicodeDigitsRemaining = 0 then
      emitDelta field { s1 with escapeActive := false }
    else (s1, [])
  else if s.escapeActive then
    let s1 := { s with collectingBuffer := s.collectingBuffer ++ [c] }
    if c = 'u' then ({ s1 with unicodeDigitsRemaining := 4 }, [])
    else emitDelta field { s1 with escapeActive := false }
  else if c = '\\' then
    ({ s with collectingBuffer := s.collectingBuffer ++ [c],
              escapeActive := true }, [])
  else if c = '"' then finalizeValue field s
  else emitDelta field { s with collectingBuffer := s.collectingBuffer ++ [c] }

/-- Dispatch on the stage for a single character of the chunk loop. -/
def processChar (field : List Char) (s : DecoderState) (c : Char) :
    DecoderState × List DecoderEvent :=
  match s.stage with
  | .SearchingKey => (processKeyChar field s c, [])
  | .AfterKey => (processPostKeyChar field s c, [])
  | .WaitingForStringStart => (processStringStartChar field s c, [])
  | .Collecting => processValueChar field s c
  | .Complete => (s, [])

/-- One iteration of the loop in `processChunk`: skip when `Complete`
(the loop condition `this.stage !== FieldStage.Complete`), otherwise process
the character and append its notifications. -/
def chunkStep (field : List Char) (acc : DecoderState × List DecoderEvent)
    (c : Char) : DecoderState × List DecoderEvent :=
  if acc.1.stage = .Complete then acc
  else ((processChar field acc.1 c).1, acc.2 ++ (processChar field acc.1 c).2)

/-- Method `processChunk`: early-return when already `Complete`, otherwise walk
the chunk character by character, stopping as soon as the stage becomes
`Complete`.  Events collect the listener notifications in emission order. -/
def processChunk (field : List Char) (s : DecoderState) (chunk : List Char) :
    DecoderState × List DecoderEvent :=
  chunk.foldl (chunkStep field) (s, [])

/-- One step of feeding a whole chunk. -/
def chunksStep (field : List Char) (acc : DecoderState × List DecoderEvent)
    (ch : List Char) : DecoderState × List DecoderEvent :=
  ((processChunk field acc.1 ch).1, acc.2 ++ (processChunk field acc.1 ch).2)

/-- Feeding a sequence of chunks to the decoder in order. -/
def processChunks (field : List Char) (s : DecoderState)
    (chunks : List (List Char)) : DecoderState × List DecoderEvent :=
  chunks.foldl (chunksStep field) (s, [])

/-- Texts of the delta notifications of an event list, in order. -/
def deltaTexts : List DecoderEvent → List (List Char)
  | [] => []
  | .delta _ d _ :: rest => d :: deltaTexts rest
  | .complete _ _ :: rest => deltaTexts rest

/-- Values of the completion notifications of an event list, in order. -/
def completeValues : List DecoderEvent → List (List Char)
  | [] => []
  | .delta _ _ _ :: rest => completeValues rest
  | .complete _ v :: rest => v :: completeValues rest

/-- Concatenation of all emitted deltas. -/
def joinedDeltas (evs : List DecoderEvent) : List Char :=
  (deltaTexts evs).flatten

/-! ### Basic machinery: chunk processing is a fold over characters -/

lemma foldl_chunkStep_acc (field : List Char) (chunk : List Char) :
    ∀ (s : DecoderState) (evs0 : List DecoderEvent),
      chunk.foldl (chunkStep field) (s, evs0)
        = ((processChunk field s chunk).1,
           evs0 ++ (processChunk field s chunk).2) := by
  induction chunk with
  | nil => intro s evs0; simp [processChunk]
  | cons c rest ih =>
    intro s evs0
    by_cases h : s.stage = .Complete
    · have hs : chunkStep field (s, evs0) c = (s, evs0) := by
        simp [chunkStep, h]
      have hs0 : chunkStep field (s, ([] : List DecoderEvent)) c = (s, []) := by
        simp [chunkStep, h]
      have hpc : processChunk field s (c :: rest) = processChunk field s rest := by
        simp only [processChunk, List.foldl_cons, hs0]
      rw [hpc]
      show List.foldl (chunkStep field) (chunkStep field (s, evs0) c) rest = _
      rw [hs]
      exact ih s evs0
    · have hs : chunkStep field (s, evs0) c
          = ((processChar field s c).1, evs0 ++ (processChar field s c).2) := by
        simp [chunkStep, h]
      have hs0 : chunkStep field (s, ([] : List DecoderEvent)) c
          = ((processChar field s c).1, [] ++ (processChar field s c).2) := by
        simp [chunkStep, h]
      have hpc : processChunk field s (c :: rest)
          = ((processChunk field (processChar field s c).1 rest).1,
             (processChar field s c).2
               ++ (processChunk field (processChar field s c).1 rest).2) := by
        simp only [processChunk, List.foldl_cons, hs0, List.nil_append]
        exact ih (processChar field s c).1 (processChar field s c).2
      rw [hpc]
      show List.foldl (chunkStep field) (chunkStep field (s, evs0) c) rest = _
      rw [hs, ih (processChar field s c).1 (evs0 ++ (processChar field s c).2)]
      simp

/-- Splitting a text anywhere and feeding the two halves in order is the same
as feeding the whole text: `processChunk` is a character-level fold. -/
lemma processChunk_append (field : List Char) (s : DecoderState)
    (a b : List Char) :
    processChunk field s (a ++ b)
      = ((processChunk field (processChunk field s a).1 b).1,
         (processChunk field s a).2
           ++ (processChunk field (processChunk field s a).1 b).2) := by
  have h := foldl_chunkStep_acc field b (processChunk field s a).1
    (processChunk field s a).2
  calc processChunk field s (a ++ b)
      = (a ++ b).foldl (chunkStep field) (s, []) := rfl
    _ = b.foldl (chunkStep field) (a.foldl (chunkStep field) (s, [])) := by
        rw [List.foldl_append]
    _ = _ := by
        have : a.foldl (chunkStep field) (s, []) = processChunk field s a := rfl
        rw [this]
        rw [show (processChunk field s a)
              = ((processChunk field s a).1, (processChunk field s a).2) from rfl] at *
        exact h

lemma foldl_chunksStep_acc (field : List Char) (chunks : List (List Char)) :
    ∀ (s : DecoderState) (evs0 : List DecoderEvent),
      chunks.foldl (chunksStep field) (s, evs0)
        = ((processChunks field s chunks).1,
           evs0 ++ (processChunks field s chunks).2) := by
  induction chunks with
  | nil => intro s evs0; simp [processChunks]
  | cons ch rest ih =>
    intro s evs0
    simp only [processChunks, List.foldl_cons, chunksStep] at *
    rw [ih (processChunk field s ch).1 (evs0 ++ (processChunk field s ch).2),
      ih (processChunk field s ch).1 ([] ++ (processChunk field s ch).2)]
    simp

/-- Feeding a chunk sequence equals feeding the concatenated text: every way
of splitting the stream into chunks yields the same end state and the same
notification sequence. -/
lemma processChunks_eq_flatten (field : List Char) (s : DecoderState)
    (chunks : List (List Char)) :
    processChunks field s chunks = processChunk field s chunks.flatten := by
  induction chunks generalizing s with
  | nil => simp [processChunks, processChunk]
  | cons ch rest ih =>
    have h1 : processChunks field s (ch :: rest)
        = ((processChunks field (processChunk field s ch).1 rest).1,
           (processChunk field s ch).2
             ++ (processChunks field (processChunk field s ch).1 rest).2) := by
      simp only [processChunks, List.foldl_cons, chunksStep]
      rw [foldl_chunksStep_acc field rest (processChunk field s ch).1
        ([] ++ (processChunk field s ch).2)]
      simp [processChunks]
    rw [h1, ih, List.flatten_cons, processChunk_append]

lemma processChunk_nil (field : List Char) (s : DecoderState) :
    processChunk field s [] = (s, []) := rfl

lemma processChunk_cons (field : List Char) (s : DecoderState) (c : Char)
    (rest : List Char) (h : ¬ s.stage = .Complete) :
    processChunk field s (c :: rest)
      = ((processChunk field (processChar field s c).1 rest).1,
         (processChar field s c).2
           ++ (processChunk field (processChar field s c).1 rest).2) := by
  simp only [processChunk, List.foldl_cons]
  have hs0 : chunkStep field (s, ([] : List DecoderEvent)) c
      = ((processChar field s c).1, [] ++ (processChar field s c).2) := by
    simp [chunkStep, h]
  rw [hs0, List.nil_append]
  exact foldl_chunkStep_acc field rest _ _

lemma processChar_search (field : List Char) (s : DecoderState) (c : Char)
    (h : s.stage = .SearchingKey) :
    processChar field s c = (processKeyChar field s c, []) := by
  simp [processChar, h]

lemma processChar_afterKey (field : List Char) (s : DecoderState) (c : Char)
    (h : s.stage = .AfterKey) :
    processChar field s c = (processPostKeyChar field s c, []) := by
  simp [processChar, h]

lemma processChar_waiting (field : List Char) (s : DecoderState) (c : Char)
    (h : s.stage = .WaitingForStringStart) :
    processChar field s c = (processStringStartChar field s c, []) := by
  simp [processChar, h]

lemma processChar_collecting (field : List Char) (s : DecoderState) (c : Char)
    (h : s.stage = .Collecting) :
    processChar field s c = processValueChar field s c := by
  simp [processChar, h]

lemma emitDelta_fields (field : List Char) (s : DecoderState) :
    (emitDelta field s).1.stage = s.stage
    ∧ (emitDelta field s).1.collectingBuffer = s.collectingBuffer
    ∧ (emitDelta field s).1.escapeActive = s.escapeActive
    ∧ (emitDelta field s).1.unicodeDigitsRemaining = s.unicodeDigitsRemaining := by
  unfold emitDelta
  split
  · exact ⟨rfl, rfl, rfl, rfl⟩
  · cases h : jsonUnescape s.collectingBuffer with
    | none => exact ⟨rfl, rfl, rfl, rfl⟩
    | some d =>
      dsimp only
      split
      · exact ⟨rfl, rfl, rfl, rfl⟩
      · exact ⟨rfl, rfl, rfl, rfl⟩

/-- Matching the key pattern in lockstep from position `j`: feeding exactly
the remaining pattern characters lands the decoder in `AfterKey`. -/
lemma lockstep_key_match (field : List Char) :
    ∀ (t : List Char) (j : Nat) (s : DecoderState),
      s.stage = .SearchingKey → s.keyIndex = j →
      (keyPattern field).drop j = t → t ≠ [] →
      processChunk field s t
        = ({ s with stage := .AfterKey, keyIndex := 0 }, []) := by
  intro t
  induction t with
  | nil => intro j s _ _ _ hne; exact absurd rfl hne
  | cons c t2 ih =>
    intro j s hst hki hdrop _
    have hget : (keyPattern field)[j]? = some c := by
      rw [← List.head?_drop, hdrop]
      rfl
    have hlt : j < (keyPattern field).length := by
      by_contra hge
      push_neg at hge
      rw [List.drop_eq_nil_of_le hge] at hdrop
      simp at hdrop
    have ht2 : (keyPattern field).drop (j + 1) = t2 := by
      have : (keyPattern field).drop (j + 1)
          = ((keyPattern field).drop j).drop 1 := by
        rw [List.drop_drop]
      rw [this, hdrop]
      rfl
    have hnc : ¬ s.stage = FieldStage.Complete := by rw [hst]; simp
    rw [processChunk_cons field s c t2 hnc, processChar_search field s c hst]
    by_cases hend : j + 1 = (keyPattern field).length
    · have ht2nil : t2 = [] := by
        have : (keyPattern field).drop (j + 1) = [] := by
          rw [hend, List.drop_length]
        rw [← ht2, this]
      have hpk : processKeyChar field s c
          = { s with stage := .AfterKey, keyIndex := 0 } := by
        unfold processKeyChar
        rw [hki]
        simp [hget, hend]
      simp [ht2nil, hpk, processChunk_nil]
    · have hpk : processKeyChar field s c = { s with keyIndex := j + 1 } := by
        unfold processKeyChar
        rw [hki]
        simp [hget, hend]
      have ht2ne : t2 ≠ [] := by
        intro hnil
        have : (keyPattern field).length ≤ j + 1 := by
          have := ht2
          rw [hnil] at this
          exact List.drop_eq_nil_iff.mp this
        omega
      have := ih (j + 1) { s with keyIndex := j + 1 } hst rfl ht2 ht2ne
      simp [hpk, this]

lemma processChunk_complete_noop (field : List Char) (s : DecoderState)
    (chunk : List Char) (h : s.stage = .Complete) :
    processChunk field s chunk = (s, []) := by
  induction chunk with
  | nil => rfl
  | cons c rest ih =>
    have hs0 : chunkStep field (s, ([] : List DecoderEvent)) c = (s, []) := by
      simp [chunkStep, h]
    simp only [processChunk, List.foldl_cons, hs0]
    exact ih

/-! ### Claim C7 — `Complete` absorbs all further input -/

/-- Claim C7: once the decoder reached the `Complete` stage, every subsequent
`processChunk` call, on every chunk, is a no-op: the state is returned
unchanged and no `onDelta` or `onComplete` notification is emitted (the model
is a total function, so nothing is thrown either). -/
theorem complete_stage_absorbs (field : List Char) (s : DecoderState)
    (chunk : List Char) (h : s.stage = .Complete) :
    processChunk field s chunk = (s, []) :=
  processChunk_complete_noop field s chunk h

/-- Witness for C7 at a concrete completed state and concrete chunk. -/
theorem complete_stage_absorbs_witness :
    processChunk ['x'] ⟨.Complete, 0, [], false, 0, 0, ['a']⟩ ['"', 'x']
      = (⟨.Complete, 0, [], false, 0, 0, ['a']⟩, []) :=
  complete_stage_absorbs ['x'] ⟨.Complete, 0, [], false, 0, 0, ['a']⟩
    ['"', 'x'] rfl

/-! ### Claim C4 — mismatch in `SearchingKey` re-evaluates the same character -/

/-- Claim C4: in the `SearchingKey` stage a mismatching character resets
`keyIndex` and is itself re-evaluated as a possible fresh match of the
pattern's first character — processing it is exactly the same as processing
it from `keyIndex = 0` — and consequently the key is still found when a
spurious copy of the pattern's first character precedes the pattern. -/
theorem searching_mismatch_retries (field : List Char) :
    (∀ (s : DecoderState) (c : Char), s.stage = .SearchingKey →
      ¬ (keyPattern field)[s.keyIndex]? = some c →
      processChar field s c
        = ({ s with keyIndex :=
               if (keyPattern field)[0]? = some c then 1 else 0 }, [])
        ∧ processChar field s c = processChar field { s with keyIndex := 0 } c)
    ∧ (field ≠ [] → field.head? ≠ some '"' →
        processChunk field initialDecoderState ('"' :: keyPattern field)
          = ({ initialDecoderState with stage := .AfterKey, keyIndex := 0 }, [])) := by
  constructor
  · intro s c hst hmis
    have hlen : 2 ≤ (keyPattern field).length := by
      simp [keyPattern]
    constructor
    · rw [processChar_search field s c hst]
      unfold processKeyChar
      simp [hmis]
    · rw [processChar_search field s c hst,
        processChar_search field { s with keyIndex := 0 } c hst]
      unfold processKeyChar
      by_cases h0 : (keyPattern field)[0]? = some c
      · have h1 : ¬ (0 + 1 = (keyPattern field).length) := by omega
        simp [hmis, h0, h1]
      · simp [hmis, h0]
  · intro hne hhead
    obtain ⟨f0, fr, rfl⟩ : ∃ f0 fr, field = f0 :: fr := by
      cases field with
      | nil => exact absurd rfl hne
      | cons a l => exact ⟨a, l, rfl⟩
    have hf0 : ¬ ((('"' : Char)) = f0) := by
      intro h
      exact hhead (by simp [← h])
    have hf0s : ¬ (f0 = '"') := fun h => hf0 h.symm
    have hget0 : (keyPattern (f0 :: fr))[0]? = some '"' := rfl
    have hget1 : (keyPattern (f0 :: fr))[1]? = some f0 := by
      simp [keyPattern]
    have hlen : ¬ (0 + 1 = (keyPattern (f0 :: fr)).length) := by
      simp [keyPattern]
    -- first character: the spurious quote advances keyIndex to 1
    have hstep1 : processKeyChar (f0 :: fr) initialDecoderState '"'
        = { initialDecoderState with keyIndex := 1 } := by
      unfold processKeyChar
      simp only [initialDecoderState]
      simp [hget0, hlen]
    -- second character: the pattern's own quote mismatches and restarts at 1
    have hstep2 : processKeyChar (f0 :: fr)
        { initialDecoderState with keyIndex := 1 } '"'
        = { initialDecoderState with keyIndex := 1 } := by
      unfold processKeyChar
      simp only [initialDecoderState]
      simp [hget1, hget0, hf0, hf0s]
    have hini : ¬ (initialDecoderState.stage = FieldStage.Complete) := by
      simp [initialDecoderState]
    have hdrop : (keyPattern (f0 :: fr)).drop 1 = (f0 :: fr) ++ ['"'] := rfl
    have hdne : (f0 :: fr) ++ ['"'] ≠ [] := by simp
    have hlock := lockstep_key_match (f0 :: fr) ((f0 :: fr) ++ ['"']) 1
      { initialDecoderState with keyIndex := 1 } rfl rfl hdrop hdne
    have hshape : ('"' :: keyPattern (f0 :: fr))
        = '"' :: '"' :: ((f0 :: fr) ++ ['"']) := rfl
    rw [hshape, processChunk_cons _ _ _ _ hini,
      processChar_search _ _ _ rfl, hstep1,
      processChunk_cons _ _ _ _ (by simp [initialDecoderState]),
      processChar_search _ _ _ rfl, hstep2, hlock]
    rfl

/-- Witness for C4 at the concrete field name `x`, exercising both the
mismatch hypothesis and the refound-key conclusion. -/
theorem searching_mismatch_retries_witness :
    processChunk ['x'] initialDecoderState ('"' :: keyPattern ['x'])
      = ({ initialDecoderState with stage := .AfterKey, keyIndex := 0 }, []) :=
  (searching_mismatch_retries ['x']).2 (by simp) (by simp)

/-! ### Claim C9 — finalizing an undecodable buffer completes silently -/

/-- The concrete stream of claim C9's reachability part: the text
`(opening brace)"x":"(backslash)uABCZ"(closing brace)` whose value contains a
unicode escape with the non-hex digit `Z`. -/
def c9Text : List Char :=
  ['{', '"', 'x', '"', ':', '"', '\\', 'u', 'A', 'B', 'C', 'Z', '"', '}']

/-- Claim C9: when the closing unescaped quote arrives and the collected raw
buffer does not parse as a JSON string literal, `finalizeValue` still moves
the decoder to `Complete` and clears the scratch state while emitting no
notification at all (the model is total, so nothing is thrown); consequently
a decoder can reach the `Complete` stage without ever firing a completion
notification, as on the concrete stream `c9Text`. -/
theorem finalize_undecodable_completes_silently :
    (∀ (field : List Char) (s : DecoderState),
      s.stage = .Collecting → s.unicodeDigitsRemaining = 0 →
      s.escapeActive = false → jsonUnescape s.collectingBuffer = none →
      processChar field s '"'
        = ({ s with stage := .Complete, collectingBuffer := [],
                    escapeActive := false, unicodeDigitsRemaining := 0 }, []))
    ∧ ((processChunk ['x'] initialDecoderState c9Text).1.stage = .Complete
        ∧ (processChunk ['x'] initialDecoderState c9Text).2 = []) := by
  constructor
  · intro field s hst huni hesc hdec
    rw [processChar_collecting field s '"' hst]
    unfold processValueChar
    rw [huni, hesc]
    simp only [lt_irrefl, if_false, Bool.false_eq_true, ite_false, ite_true,
      if_pos rfl]
    have hq1 : ¬ (('"' : Char) = '\\') := by decide
    simp only [hq1, if_false, ite_false, if_pos rfl]
    unfold finalizeValue
    rw [hdec]
    rfl
  · constructor
    · rfl
    · rfl

/-- Witness for C9's conditional part at a concrete `Collecting` state whose
buffer is the undecodable text `(backslash)x`. -/
theorem finalize_undecodable_completes_silently_witness :
    processChar ['f'] ⟨.Collecting, 0, ['\\', 'x'], false, 0, 0, []⟩ '"'
      = (⟨.Complete, 0, [], false, 0, 0, []⟩, []) :=
  finalize_undecodable_completes_silently.1 ['f']
    ⟨.Collecting, 0, ['\\', 'x'], false, 0, 0, []⟩ rfl rfl rfl (by decide)

/-! ### Claim C10 — the unicode countdown consumes characters blindly -/

/-- The concrete stream of claim C10's silent-failure part: a unicode escape
whose first "digit" is an unescaped quote, followed by further characters. -/
def c10Text : List Char :=
  ['{', '"', 'x', '"', ':', '"', '\\', 'u', '"', '2', '2', '2']

/-- Claim C10: while `unicodeDigitsRemaining > 0`, `processValueChar` buffers
every incoming character as a countdown digit without hex validation — in
particular an unescaped quote or backslash is buffered, does not finalize the
value and does not start a new escape — and non-hex digits merely make the
subsequent decode attempts fail silently: on the concrete stream `c10Text`
no notification is emitted and the decoder stays in `Collecting`. -/
theorem unicode_countdown_consumes_blindly :
    (∀ (field : List Char) (s : DecoderState) (c : Char),
      s.stage = .Collecting → 0 < s.unicodeDigitsRemaining →
      processChar field s c
        = (if s.unicodeDigitsRemaining = 1 then
             emitDelta field
               { s with collectingBuffer := s.collectingBuffer ++ [c],
                        unicodeDigitsRemaining := 0, escapeActive := false }
           else
             ({ s with collectingBuffer := s.collectingBuffer ++ [c],
                       unicodeDigitsRemaining := s.unicodeDigitsRemaining - 1 },
              []))
        ∧ (processChar field s c).1.stage = .Collecting
        ∧ (processChar field s c).1.collectingBuffer = s.collectingBuffer ++ [c]
        ∧ (processChar field s c).1.escapeActive
            = (if s.unicodeDigitsRemaining = 1 then false else s.escapeActive))
    ∧ ((processChunk ['x'] initialDecoderState c10Text).2 = []
        ∧ (processChunk ['x'] initialDecoderState c10Text).1.stage = .Collecting
        ∧ (processChunk ['x'] initialDecoderState c10Text).1.collectingBuffer
            = ['\\', 'u', '"', '2', '2', '2']) := by
  constructor
  · intro field s c hst hpos
    have hmain : processChar field s c
        = (if s.unicodeDigitsRemaining = 1 then
             emitDelta field
               { s with collectingBuffer := s.collectingBuffer ++ [c],
                        unicodeDigitsRemaining := 0, escapeActive := false }
           else
             ({ s with collectingBuffer := s.collectingBuffer ++ [c],
                       unicodeDigitsRemaining := s.unicodeDigitsRemaining - 1 },
              [])) := by
      rw [processChar_collecting field s c hst]
      unfold processValueChar
      rw [if_pos hpos]
      by_cases h1 : s.unicodeDigitsRemaining = 1
      · simp [h1]
      · have : ¬ (s.unicodeDigitsRemaining - 1 = 0) := by omega
        simp [h1, this]
    refine ⟨hmain, ?_, ?_, ?_⟩
    · rw [hmain]
      by_cases h1 : s.unicodeDigitsRemaining = 1
      · rw [if_pos h1, (emitDelta_fields field _).1]
        exact hst
      · rw [if_neg h1]
        exact hst
    · rw [hmain]
      by_cases h1 : s.unicodeDigitsRemaining = 1
      · rw [if_pos h1, (emitDelta_fields field _).2.1]
      · rw [if_neg h1]
    · rw [hmain]
      by_cases h1 : s.unicodeDigitsRemaining = 1
      · rw [if_pos h1, if_pos h1, (emitDelta_fields field _).2.2.1]
      · rw [if_neg h1, if_neg h1]
  · exact ⟨rfl, rfl, rfl⟩

/-- Witness for C10 at a concrete mid-countdown state receiving an unescaped
quote, which is buffered without finalizing the value. -/
theorem unicode_countdown_consumes_blindly_witness :
    processChar ['x'] ⟨.Collecting, 0, ['\\', 'u'], true, 4, 0, []⟩ '"'
      = (⟨.Collecting, 0, ['\\', 'u', '"'], true, 3, 0, []⟩, []) := by
  have h := (unicode_countdown_consumes_blindly.1 ['x']
    ⟨.Collecting, 0, ['\\', 'u'], true, 4, 0, []⟩ '"' rfl (by decide)).1
  rw [h]
  rfl

/-! ### The execute-stream pipeline (src/app/api/terminal/stream/route.ts)

The upstream producer `runExecute` is an async generator treated as an opaque
producer: it yields a list of structured events and then either completes
normally or raises.  Wall-clock readings of `Date.now()` are supplied as
explicit inputs.  Client-visible emissions, flush invocations, persistence
writes and the summary write are recorded in an action trace. -/

/-- Shapes accepted by `appendErrorText`: an object with a string `message`,
an object with a string `text` (and no string `message`), a plain string, or
anything else. -/
inductive ErrPayload where
  | withMessage (m : String)
  | withText (t : String)
  | plainString (s : String)
  | other
deriving DecidableEq

/-- The text `appendErrorText` extracts from a payload (empty for shapes it
does not recognise). -/
def errText : ErrPayload → String
  | .withMessage m => m
  | .withText t => t
  | .plainString s => s
  | .other => ""

/-- Function `appendErrorText`: keep the buffer when no text was extracted
(JavaScript `if (!text)` is also taken for the empty string), otherwise
append with a newline separator when the buffer is non-empty. -/
def appendErrorText (buffer : String) (p : ErrPayload) : String :=
  let text := errText p
  if text = "" then buffer
  else if buffer = "" then text
  else buffer ++ "\n" ++ text

/-- The `ExecuteEvent` union of `src/lib/agents` as consumed by the route:
`token` carries text, `stderr` carries an error payload, `status` optionally
carries counters and an exit code. -/
inductive ExecuteEvent where
  | token (text : String)
  | stderr (payload : ErrPayload)
  | status (tokensIn tokensOut exitCode : Option Int)
deriving DecidableEq

/-- One record pushed onto `eventBatch` for persistence. -/
structure PersistedEvent where
  sessionId : String
  event : ExecuteEvent
deriving DecidableEq

/-- The mutable locals of `createExecuteStream`'s `start` body. -/
structure PipelineState where
  outputBuffer : String
  errorBuffer : String
  tokensIn : Int
  tokensOut : Int
  encounteredError : Bool
  eventBatch : List PersistedEvent
  lastFlush : Nat
deriving DecidableEq

/-- Observable actions of one request's pipeline, in order: client-visible
SSE emissions, `flushEvents` invocations, bulk persistence attempts
(`prisma.terminalEvent.createMany`, with the outcome of the write), the
summary write (`finalizeCommandRecord`) and the closing of the stream. -/
inductive StreamAction where
  | emitEvent (e : ExecuteEvent)
  | emitError (message : String)
  | emitDone
  | flushCall
  | persistEvents (evs : List PersistedEvent) (ok : Bool)
  | finalizeRecord (output : Option String) (latencyMs : Nat)
      (tokensIn tokensOut : Int)
  | closeStream
deriving DecidableEq

/-- Function `flushEvents`: an empty batch returns immediately; otherwise the
whole batch is spliced out and handed to the bulk write, whose failure is
caught and logged — in both outcomes the removed events are gone from the
batch and are never re-queued. -/
def flushEvents (s : PipelineState) (writeOk : Bool) :
    PipelineState × List StreamAction :=
  if s.eventBatch = [] then (s, [.flushCall])
  else ({ s with eventBatch := [] },
        [.flushCall, .persistEvents s.eventBatch writeOk])

/-- JavaScript `String.prototype.trim` over the `\s` character class. -/
def jsTrim (s : String) : String :=
  String.mk
    (((s.toList.dropWhile (fun c => isJsWhitespace c)).reverse.dropWhile
      (fun c => isJsWhitespace c)).reverse)

/-- The summary text computed by `finalize`: the output buffer when
non-empty; else the trimmed `Error: `-prefixed error buffer when an error
was encountered and the error buffer is non-empty; else `null`. -/
def finalizeOutput (s : PipelineState) : Option String :=
  if 0 < s.outputBuffer.length then some s.outputBuffer
  else if s.encounteredError = true ∧ 0 < s.errorBuffer.length then
    some (jsTrim ("Error: " ++ s.errorBuffer))
  else none

/-- Function `finalize`: compute the latency from the pipeline start and hand
the single summary record to `finalizeCommandRecord`. -/
def finalize (s : PipelineState) (startTime now : Nat) : StreamAction :=
  .finalizeRecord (finalizeOutput s) (now - startTime) s.tokensIn s.tokensOut

/-- The per-event bookkeeping of the `for await` loop body: push the event
onto the batch, then accumulate buffers and counters according to its kind
(status counters are last-write-wins; a non-zero exit code and any stderr
event permanently set `encounteredError`). -/
def applyEvent (sessionId : String) (s : PipelineState) (e : ExecuteEvent) :
    PipelineState :=
  let s1 := { s with eventBatch := s.eventBatch ++ [⟨sessionId, e⟩] }
  match e with
  | .token text => { s1 with outputBuffer := s1.outputBuffer ++ text }
  | .stderr p =>
    { s1 with encounteredError := true,
              errorBuffer := appendErrorText s1.errorBuffer p }
  | .status tin tout ec =>
    let s2 := match tin with
      | some n => { s1 with tokensIn := n }
      | none => s1
    let s3 := match tout with
      | some n => { s2 with tokensOut := n }
      | none => s2
    match ec with
    | some n => if n ≠ 0 then { s3 with encounteredError := true } else s3
    | none => s3

/-- One yielded item of the upstream producer together with the `Date.now()`
reading taken after processing it and the outcome of the persistence write
should a cadence flush trigger here. -/
structure LoopInput where
  event : ExecuteEvent
  now : Nat
  writeOk : Bool
deriving DecidableEq

/-- One iteration of the `for await` loop: emit the event to the client,
apply the bookkeeping, then flush when more than 200 ms elapsed since the
last flush. -/
def loopIter (sessionId : String)
    (acc : PipelineState × List StreamAction) (it : LoopInput) :
    PipelineState × List StreamAction :=
  let s1 := applyEvent sessionId acc.1 it.event
  let acts := acc.2 ++ [.emitEvent it.event]
  if 200 < it.now - s1.lastFlush then
    let r := flushEvents s1 it.writeOk
    ({ r.1 with lastFlush := it.now }, acts ++ r.2)
  else (s1, acts)

/-- Whether the upstream producer completed normally or raised (with an
`Error` carrying a message, or a non-`Error` value). -/
inductive ProducerResult where
  | completed
  | raised (error : Option String)
deriving DecidableEq

/-- An abstract run of the upstream producer: the items it yielded in order,
then its terminal outcome.  Raising before any yield is `items = []`. -/
structure ProducerRun where
  items : List LoopInput
  result : ProducerResult
deriving DecidableEq

/-- The locals at the start of `createExecuteStream`'s `start` body. -/
def initialPipelineState (startTime : Nat) : PipelineState :=
  { outputBuffer := "", errorBuffer := "", tokensIn := 0, tokensOut := 0,
    encounteredError := false, eventBatch := [], lastFlush := startTime }

/-- The whole `start` body of `createExecuteStream`: drive the producer; on
normal completion flush, finalize, emit `done`; on a raise record the error,
emit the `error` event, flush, finalize; in both cases close the stream
last. -/
def runExecuteStream (sessionId : String) (startTime : Nat)
    (run : ProducerRun) (finalWriteOk : Bool) (endNow : Nat) :
    PipelineState × List StreamAction :=
  let afterLoop := run.items.foldl (loopIter sessionId)
    (initialPipelineState startTime, [])
  match run.result with
  | .completed =>
    let fr := flushEvents afterLoop.1 finalWriteOk
    (fr.1, afterLoop.2 ++ fr.2
      ++ [finalize fr.1 startTime endNow, .emitDone, .closeStream])
  | .raised err =>
    let msg := match err with
      | some m => m
      | none => "Unknown error"
    let s1 := { afterLoop.1 with
                encounteredError := true,
                errorBuffer := appendErrorText afterLoop.1.errorBuffer
                  (.plainString msg) }
    let fr := flushEvents s1 finalWriteOk
    (fr.1, afterLoop.2 ++ [.emitError msg] ++ fr.2
      ++ [finalize fr.1 startTime endNow, .closeStream])

/-- Recognises the summary write in a trace. -/
def isFinalizeAction : StreamAction → Bool
  | .finalizeRecord _ _ _ _ => true
  | _ => false

/-- Number of summary writes in a trace. -/
def finalizeCount (tr : List StreamAction) : Nat :=
  (tr.filter (fun a => isFinalizeAction a)).length

lemma flushEvents_no_finalize (s : PipelineState) (ok : Bool) :
    ∀ a ∈ (flushEvents s ok).2, isFinalizeAction a = false := by
  unfold flushEvents
  split
  · intro a ha
    simp at ha
    subst ha
    rfl
  · intro a ha
    simp at ha
    rcases ha with h | h <;> subst h <;> rfl

lemma loopIter_no_finalize (sessionId : String) (s : PipelineState)
    (acts : List StreamAction) (it : LoopInput)
    (h : ∀ a ∈ acts, isFinalizeAction a = false) :
    ∀ a ∈ (loopIter sessionId (s, acts) it).2, isFinalizeAction a = false := by
  unfold loopIter
  dsimp only
  split
  · intro a ha
    rw [List.mem_append, List.mem_append] at ha
    rcases ha with (h1 | h1) | h1
    · exact h a h1
    · rw [List.mem_singleton] at h1; subst h1; rfl
    · exact flushEvents_no_finalize _ _ a h1
  · intro a ha
    rw [List.mem_append] at ha
    rcases ha with h1 | h1
    · exact h a h1
    · rw [List.mem_singleton] at h1; subst h1; rfl

lemma loop_no_finalize (sessionId : String) (items : List LoopInput) :
    ∀ (s : PipelineState) (acts : List StreamAction),
      (∀ a ∈ acts, isFinalizeAction a = false) →
      ∀ a ∈ (items.foldl (loopIter sessionId) (s, acts)).2,
        isFinalizeAction a = false := by
  induction items with
  | nil => intro s acts h a ha; exact h a ha
  | cons it rest ih =>
    intro s acts h a ha
    rw [List.foldl_cons] at ha
    have hstep := loopIter_no_finalize sessionId s acts it h
    have : loopIter sessionId (s, acts) it
        = ((loopIter sessionId (s, acts) it).1,
           (loopIter sessionId (s, acts) it).2) := rfl
    rw [this] at ha
    exact ih (loopIter sessionId (s, acts) it).1
      (loopIter sessionId (s, acts) it).2 hstep a ha

lemma filter_finalize_nil (tr : List StreamAction)
    (h : ∀ a ∈ tr, isFinalizeAction a = false) :
    tr.filter (fun a => isFinalizeAction a) = [] := by
  induction tr with
  | nil => rfl
  | cons x rest ih =>
    rw [List.filter_cons]
    have hx : isFinalizeAction x = false := h x (by simp)
    simp only [hx, Bool.false_eq_true, if_false, ite_false]
    exact ih (fun a ha => h a (by simp [ha]))

lemma flushCall_mem_flushEvents (s : PipelineState) (ok : Bool) :
    StreamAction.flushCall ∈ (flushEvents s ok).2 := by
  unfold flushEvents
  split <;> simp

lemma finalizeCount_append (a b : List StreamAction) :
    finalizeCount (a ++ b) = finalizeCount a + finalizeCount b := by
  simp [finalizeCount, List.filter_append]

lemma finalizeCount_cons (x : StreamAction) (a : List StreamAction) :
    finalizeCount (x :: a)
      = (if isFinalizeAction x = true then 1 else 0) + finalizeCount a := by
  rw [finalizeCount, List.filter_cons]
  split
  · rename_i h
    simp [finalizeCount, h]
    omega
  · rename_i h
    simp only [Bool.not_eq_true] at h
    simp [finalizeCount, h]

lemma finalizeCount_zero (tr : List StreamAction)
    (h : ∀ a ∈ tr, isFinalizeAction a = false) : finalizeCount tr = 0 := by
  rw [finalizeCount, filter_finalize_nil tr h]
  rfl

/-! ### Claim C3 — the Finalizer runs exactly once per request -/

/-- Claim C3: on every run of the execute stream — the upstream producer
completing normally or raising, even before its first yield — the summary
write (`finalize`, which calls `finalizeCommandRecord`) appears exactly once
in the trace, and the stream-closing action is the last action of the
trace. -/
theorem finalizer_runs_exactly_once (sessionId : String) (startTime : Nat)
    (run : ProducerRun) (finalWriteOk : Bool) (endNow : Nat) :
    finalizeCount
        (runExecuteStream sessionId startTime run finalWriteOk endNow).2 = 1
    ∧ ∃ pre,
        (runExecuteStream sessionId startTime run finalWriteOk endNow).2
          = pre ++ [.closeStream] := by
  have hloop := loop_no_finalize sessionId run.items
    (initialPipelineState startTime) [] (by intro a ha; simp at ha)
  cases hres : run.result with
  | completed =>
    unfold runExecuteStream
    rw [hres]
    dsimp only
    generalize hP : run.items.foldl (loopIter sessionId)
      (initialPipelineState startTime, []) = P
    rw [hP] at hloop
    have hQnf := flushEvents_no_finalize P.1 finalWriteOk
    generalize hQ : flushEvents P.1 finalWriteOk = Q
    rw [hQ] at hQnf
    constructor
    · rw [finalizeCount_append, finalizeCount_append,
        finalizeCount_zero _ hloop, finalizeCount_zero _ hQnf]
      rfl
    · exact ⟨P.2 ++ (Q.2 ++ [finalize Q.1 startTime endNow, .emitDone]),
        by simp⟩
  | raised err =>
    unfold runExecuteStream
    rw [hres]
    dsimp only
    generalize hP : run.items.foldl (loopIter sessionId)
      (initialPipelineState startTime, []) = P
    rw [hP] at hloop
    generalize hM : (match err with
      | some m => m
      | none => "Unknown error") = msg
    have hQnf := flushEvents_no_finalize
      { P.1 with
        encounteredError := true,
        errorBuffer := appendErrorText P.1.errorBuffer (.plainString msg) }
      finalWriteOk
    generalize hQ : flushEvents
      { P.1 with
        encounteredError := true,
        errorBuffer := appendErrorText P.1.errorBuffer (.plainString msg) }
      finalWriteOk = Q
    rw [hQ] at hQnf
    constructor
    · rw [finalizeCount_append, finalizeCount_append, finalizeCount_append,
        finalizeCount_zero _ hloop, finalizeCount_zero _ hQnf,
        finalizeCount_zero _ (by
          intro a ha
          rw [List.mem_singleton] at ha
          subst ha
          rfl)]
      rfl
    · exact ⟨P.2 ++ [.emitError msg] ++ Q.2 ++ [finalize Q.1 startTime endNow],
        by simp⟩

/-! ### Claim C6 — a flush always precedes the Finalizer -/

/-- Claim C6: on every terminal path — normal completion or a raise, even a
raise before any item was yielded — the trace contains an invocation of
`flushEvents` strictly before the summary write: the trace splits into a
finalize-free part containing a flush invocation, followed by a part
containing the summary write. -/
theorem flush_before_finalizer (sessionId : String) (startTime : Nat)
    (run : ProducerRun) (finalWriteOk : Bool) (endNow : Nat) :
    ∃ pre post,
      (runExecuteStream sessionId startTime run finalWriteOk endNow).2
          = pre ++ post
      ∧ StreamAction.flushCall ∈ pre
      ∧ (∀ a ∈ pre, isFinalizeAction a = false)
      ∧ ∃ o l tin tout, StreamAction.finalizeRecord o l tin tout ∈ post := by
  have hloop := loop_no_finalize sessionId run.items
    (initialPipelineState startTime) [] (by intro a ha; simp at ha)
  cases hres : run.result with
  | completed =>
    unfold runExecuteStream
    rw [hres]
    dsimp only
    generalize hP : run.items.foldl (loopIter sessionId)
      (initialPipelineState startTime, []) = P
    rw [hP] at hloop
    have hQnf := flushEvents_no_finalize P.1 finalWriteOk
    have hQmem := flushCall_mem_flushEvents P.1 finalWriteOk
    generalize hQ : flushEvents P.1 finalWriteOk = Q
    rw [hQ] at hQnf hQmem
    refine ⟨P.2 ++ Q.2,
      [finalize Q.1 startTime endNow, .emitDone, .closeStream],
      by simp, ?_, ?_, ?_⟩
    · exact List.mem_append.mpr (Or.inr hQmem)
    · intro a ha
      rcases List.mem_append.mp ha with h | h
      · exact hloop a h
      · exact hQnf a h
    · exact ⟨finalizeOutput Q.1, endNow - startTime, Q.1.tokensIn,
        Q.1.tokensOut, by simp [finalize]⟩
  | raised err =>
    unfold runExecuteStream
    rw [hres]
    dsimp only
    generalize hP : run.items.foldl (loopIter sessionId)
      (initialPipelineState startTime, []) = P
    rw [hP] at hloop
    generalize hM : (match err with
      | some m => m
      | none => "Unknown error") = msg
    have hQnf := flushEvents_no_finalize
      { P.1 with
        encounteredError := true,
        errorBuffer := appendErrorText P.1.errorBuffer (.plainString msg) }
      finalWriteOk
    have hQmem := flushCall_mem_flushEvents
      { P.1 with
        encounteredError := true,
        errorBuffer := appendErrorText P.1.errorBuffer (.plainString msg) }
      finalWriteOk
    generalize hQ : flushEvents
      { P.1 with
        encounteredError := true,
        errorBuffer := appendErrorText P.1.errorBuffer (.plainString msg) }
      finalWriteOk = Q
    rw [hQ] at hQnf hQmem
    refine ⟨P.2 ++ [.emitError msg] ++ Q.2,
      [finalize Q.1 startTime endNow, .closeStream],
      by simp, ?_, ?_, ?_⟩
    · exact List.mem_append.mpr (Or.inr hQmem)
    · intro a ha
      rcases List.mem_append.mp ha with h | h
      · rcases List.mem_append.mp h with h2 | h2
        · exact hloop a h2
        · rw [List.mem_singleton] at h2
          subst h2
          rfl
      · exact hQnf a h
    · exact ⟨finalizeOutput Q.1, endNow - startTime, Q.1.tokensIn,
        Q.1.tokensOut, by simp [finalize]⟩

/-! ### Claim C5 — summary text precedence and latency -/

lemma string_length_pos_iff (s : String) : 0 < s.length ↔ s ≠ "" := by
  constructor
  · intro h he
    subst he
    simp at h
  · intro h
    cases s with
    | mk l =>
      cases l with
      | nil => exact absurd rfl h
      | cons c cs => simp [String.length]

/-- Claim C5: the Finalizer persists, with this precedence: the output buffer
when non-empty; otherwise, when an error was encountered and the error buffer
is non-empty, the trimmed text `Error: ` followed by the error buffer;
otherwise null — and in every case the persisted latency is the wall-clock
time elapsed since the pipeline started, with the accumulated token
counters. -/
theorem finalize_summary_precedence (s : PipelineState) (startTime now : Nat) :
    (s.outputBuffer ≠ "" →
      finalize s startTime now
        = .finalizeRecord (some s.outputBuffer) (now - startTime)
            s.tokensIn s.tokensOut)
    ∧ (s.outputBuffer = "" → s.encounteredError = true → s.errorBuffer ≠ "" →
      finalize s startTime now
        = .finalizeRecord (some (jsTrim ("Error: " ++ s.errorBuffer)))
            (now - startTime) s.tokensIn s.tokensOut)
    ∧ (s.outputBuffer = "" → s.encounteredError = false ∨ s.errorBuffer = "" →
      finalize s startTime now
        = .finalizeRecord none (now - startTime) s.tokensIn s.tokensOut) := by
  refine ⟨?_, ?_, ?_⟩
  · intro h
    unfold finalize finalizeOutput
    rw [if_pos ((string_length_pos_iff _).mpr h)]
  · intro h1 h2 h3
    unfold finalize finalizeOutput
    rw [if_neg (by rw [string_length_pos_iff]; simp [h1]),
      if_pos ⟨h2, (string_length_pos_iff _).mpr h3⟩]
  · intro h1 h2
    unfold finalize finalizeOutput
    rw [if_neg (by rw [string_length_pos_iff]; simp [h1]), if_neg]
    rcases h2 with h | h
    · intro hc
      rw [h] at hc
      exact absurd hc.1 (by simp)
    · intro hc
      have := (string_length_pos_iff s.errorBuffer).mp hc.2
      exact this h

/-- Witness for C5 on the error path at a concrete pipeline state. -/
theorem finalize_summary_precedence_witness :
    finalize ⟨"", "boom", 3, 4, true, [], 0⟩ 5 12
      = .finalizeRecord (some "Error: boom") 7 3 4 := by
  have h := (finalize_summary_precedence ⟨"", "boom", 3, 4, true, [], 0⟩ 5 12).2.1
    rfl rfl (by decide)
  rw [h]
  rfl

/-! ### Claim C8 — flushEvents splices the batch and drops it on failure -/

/-- Claim C8: `flushEvents` removes the whole queued batch (the model's
atomic step reflects the synchronous `splice(0)` taken before the awaited
write), hands exactly the removed events to the bulk write, and never throws
to its caller (the model is a total function; a rejected write is caught);
whether or not the write succeeds the removed events are not restored, so a
later flush persists only events queued after the failed one. -/
theorem flush_splices_and_drops (s : PipelineState) (writeOk : Bool) :
    ((flushEvents s writeOk).1 = { s with eventBatch := [] }
      ∧ (s.eventBatch ≠ [] →
          (flushEvents s writeOk).2
            = [.flushCall, .persistEvents s.eventBatch writeOk])
      ∧ (s.eventBatch = [] → (flushEvents s writeOk).2 = [.flushCall]))
    ∧ (∀ (later : List PersistedEvent) (ok2 : Bool),
        (flushEvents { (flushEvents s false).1 with eventBatch := later }
            ok2).2
          = if later = [] then [.flushCall]
            else [.flushCall, .persistEvents later ok2]) := by
  constructor
  · refine ⟨?_, ?_, ?_⟩
    · unfold flushEvents
      split
      · rename_i hnil
        cases s
        simp_all
      · rfl
    · intro h
      unfold flushEvents
      rw [if_neg h]
    · intro h
      unfold flushEvents
      rw [if_pos h]
  · intro later ok2
    have h1 : (flushEvents s false).1 = { s with eventBatch := [] } := by
      unfold flushEvents
      split
      · rename_i hnil
        cases s
        simp_all
      · rfl
    rw [h1]
    show (flushEvents { s with eventBatch := later } ok2).2 = _
    unfold flushEvents
    dsimp only
    split
    · rfl
    · rfl

/-- Witness for C8 at a concrete non-empty batch. -/
theorem flush_splices_and_drops_witness :
    (flushEvents ⟨"", "", 0, 0, false, [⟨"sess", .token "hi"⟩], 0⟩ false).2
      = [.flushCall, .persistEvents [⟨"sess", .token "hi"⟩] false] :=
  (flush_splices_and_drops ⟨"", "", 0, 0, false, [⟨"sess", .token "hi"⟩], 0⟩
    false).1.2.1 (by simp)

/-! ### The raw-text pipeline (src/app/api/ai/generate/stream/route.ts)

The `POST` handler drives two decoders — for the fields `command` and
`explanation` — over the chunk stream of `runSuggest`, tracking in
`latestCommand` and `latestExplanation` the `fullValue` of the last delta
notification each decoder emitted, and merges them with the producer's
structured result into `finalPayload`. -/

/-- The structured output of `runSuggest`. -/
structure SuggestOutput where
  command : String
  explanation : String
deriving DecidableEq

/-- The `AgentRunResult` returned by `runSuggest`. -/
structure SuggestResult where
  output : SuggestOutput
  usageInputTokens : Int
  usageOutputTokens : Int
  latencyMs : Int
deriving DecidableEq

/-- The `finalPayload` record of the `result` event. -/
structure FinalPayload where
  command : String
  explanation : String
  tokensIn : Int
  tokensOut : Int
  latencyMs : Int
deriving DecidableEq

/-- JavaScript `a || b` on strings: the empty string is falsy. -/
def jsOrString (a b : String) : String :=
  if a = "" then b else a

/-- The `finalPayload` computation of the route:
`latestCommand || result.output.command` and likewise for the
explanation. -/
def finalPayload (latestCommand latestExplanation : String)
    (result : SuggestResult) : FinalPayload :=
  { command := jsOrString latestCommand result.output.command,
    explanation := jsOrString latestExplanation result.output.explanation,
    tokensIn := result.usageInputTokens,
    tokensOut := result.usageOutputTokens,
    latencyMs := result.latencyMs }

/-- The running `latestCommand` / `latestExplanation` variable: each delta
notification overwrites it with the delta's `fullValue`; it starts empty.
Only `onDelta` is registered in this route, so completion notifications do
not touch it. -/
def latestFromEvents (evs : List DecoderEvent) : List Char :=
  evs.foldl
    (fun acc e =>
      match e with
      | .delta _ _ fv => fv
      | .complete _ _ => acc)
    []

/-- Field name `command` as character list. -/
def commandField : List Char := ['c', 'o', 'm', 'm', 'a', 'n', 'd']

/-- Field name `explanation` as character list. -/
def explanationField : List Char :=
  ['e', 'x', 'p', 'l', 'a', 'n', 'a', 't', 'i', 'o', 'n']

/-- The derived value of one field decoder after the chunk stream: the
`fullValue` carried by its last delta notification (empty when none
fired). -/
def decoderLatest (field : List Char) (chunks : List (List Char)) : String :=
  String.mk
    (latestFromEvents (processChunks field initialDecoderState chunks).2)

/-- The whole raw-text-producer run: feed every chunk to both decoders, then
merge the tracked latest values with the structured result. -/
def generateStreamRun (chunks : List (List Char)) (result : SuggestResult) :
    FinalPayload :=
  finalPayload (decoderLatest commandField chunks)
    (decoderLatest explanationField chunks) result

/-! ### Claim C2 — which side of the merge is authoritative -/

/-- The chunk stream of the C2 counterexample: the producer's raw stream was
cut off after `ab`, mid-value. -/
def c2Chunks : List (List Char) :=
  [['{', '"', 'c', 'o', 'm', 'm', 'a', 'n', 'd', '"', ':', '"', 'a', 'b']]

/-- The structured result of the C2 counterexample: the producer's parsed
output carries the full command `abc`. -/
def c2Result : SuggestResult :=
  ⟨⟨"abc", "because"⟩, 1, 2, 3⟩

/-- Counterexample to claim C2 as stated: the decoder-derived command `ab` is
a non-empty proper prefix of the structured result's command `abc`, yet the
final payload carries the partial decoder value, not the structured result's
value. -/
theorem partial_decoder_value_beats_result :
    decoderLatest commandField c2Chunks = "ab"
    ∧ c2Result.output.command = "ab" ++ "c"
    ∧ (generateStreamRun c2Chunks c2Result).command = "ab"
    ∧ (generateStreamRun c2Chunks c2Result).command ≠ c2Result.output.command := by
  refine ⟨rfl, rfl, rfl, ?_⟩
  decide

/-- Claim C2 as amended: in the final `result` payload the structured result
is authoritative exactly when the decoder-derived value is empty; whenever
the decoder-derived value is non-empty — even a partial prefix — it is used
unchanged. -/
theorem final_payload_merge (chunks : List (List Char))
    (result : SuggestResult) :
    (decoderLatest commandField chunks = "" →
      (generateStreamRun chunks result).command = result.output.command)
    ∧ (decoderLatest commandField chunks ≠ "" →
      (generateStreamRun chunks result).command
        = decoderLatest commandField chunks)
    ∧ (decoderLatest explanationField chunks = "" →
      (generateStreamRun chunks result).explanation
        = result.output.explanation)
    ∧ (decoderLatest explanationField chunks ≠ "" →
      (generateStreamRun chunks result).explanation
        = decoderLatest explanationField chunks) := by
  refine ⟨?_, ?_, ?_, ?_⟩ <;>
    intro h <;>
    simp [generateStreamRun, finalPayload, jsOrString, h]

/-- Witness for the amended C2 on both sides of the merge: the cut-off
stream keeps the decoder value, the empty stream falls back to the
structured result. -/
theorem final_payload_merge_witness :
    (generateStreamRun c2Chunks c2Result).command = "ab"
    ∧ (generateStreamRun [] c2Result).command = "abc" := by
  constructor
  · rw [(final_payload_merge c2Chunks c2Result).2.1 (by decide)]
    rfl
  · exact (final_payload_merge [] c2Result).1 rfl

/-! ### JSON texts as sequences of tokens of escape units

To state claim C1 the universally quantified "JSON text containing a
well-formed pair" is embedded as a grammar: string bodies are sequences of
escape units (a plain character, a single-character escape, or a
`(backslash)uXXXX` escape), rendered compactly.  This covers every choice of
escaping the producer can make inside string literals. -/

/-- One unit of a JSON string body. -/
inductive EscUnit where
  | plain (c : Char)
  | esc (c : Char)
  | uni (d1 d2 d3 d4 : Char)
deriving DecidableEq

/-- The raw characters a unit contributes to the JSON text. -/
def escOfUnit : EscUnit → List Char
  | .plain c => [c]
  | .esc c => ['\\', c]
  | .uni d1 d2 d3 d4 => ['\\', 'u', d1, d2, d3, d4]

/-- The raw characters of a whole string body. -/
def escOf (us : List EscUnit) : List Char :=
  (us.map escOfUnit).flatten

/-- The decoded character a unit denotes. -/
def decodeUnit : EscUnit → Char
  | .plain c => c
  | .esc c => (escCharMeaning c).getD '?'
  | .uni d1 d2 d3 d4 =>
    match hexVal4 d1 d2 d3 d4 with
    | some n => Char.ofNat n
    | none => '?'

/-- The decoded value of a whole string body. -/
def decodeUnits (us : List EscUnit) : List Char :=
  us.map decodeUnit

/-- Well-formedness of one unit: a plain character must be unescaped-legal in
a JSON string; an escape character must be a legal single escape; a unicode
escape must be four hex digits denoting a non-surrogate. -/
def unitOkB : EscUnit → Bool
  | .plain c => !(c = '"' ∨ c.toNat < 32 : Bool) && !(c = '\\' : Bool)
  | .esc c => (escCharMeaning c).isSome
  | .uni d1 d2 d3 d4 =>
    match hexVal4 d1 d2 d3 d4 with
    | some n => !(0xD800 ≤ n ∧ n ≤ 0xDFFF : Bool)
    | none => false

lemma escOf_nil : escOf [] = [] := rfl

lemma escOf_cons (u : EscUnit) (us : List EscUnit) :
    escOf (u :: us) = escOfUnit u ++ escOf us := by
  simp [escOf]

lemma escOf_append (a b : List EscUnit) :
    escOf (a ++ b) = escOf a ++ escOf b := by
  simp [escOf]

lemma decodeUnits_append (a b : List EscUnit) :
    decodeUnits (a ++ b) = decodeUnits a ++ decodeUnits b := by
  simp [decodeUnits]

lemma jsonUnescape_cons_plain (c : Char) (rest : List Char)
    (h1 : ¬ c = '\\') (h2 : ¬ (c = '"' ∨ c.toNat < 32)) :
    jsonUnescape (c :: rest) = (jsonUnescape rest).map (fun t => c :: t) := by
  rw [jsonUnescape.eq_def]
  dsimp only
  rw [if_neg h1, if_neg h2]

lemma jsonUnescape_cons_esc (c m : Char) (rest : List Char)
    (h1 : escCharMeaning c = some m) :
    jsonUnescape ('\\' :: c :: rest)
      = (jsonUnescape rest).map (fun t => m :: t) := by
  have hcu : ¬ (c = 'u') := by
    intro hcon
    rw [hcon] at h1
    simp [escCharMeaning] at h1
  rw [jsonUnescape.eq_def]
  dsimp only
  rw [if_pos rfl, if_neg hcu, h1]

lemma jsonUnescape_cons_uni (d1 d2 d3 d4 : Char) (n : Nat) (rest : List Char)
    (h1 : hexVal4 d1 d2 d3 d4 = some n)
    (h2 : ¬ (0xD800 ≤ n ∧ n ≤ 0xDFFF)) :
    jsonUnescape ('\\' :: 'u' :: d1 :: d2 :: d3 :: d4 :: rest)
      = (jsonUnescape rest).map (fun t => Char.ofNat n :: t) := by
  rw [jsonUnescape.eq_def]
  dsimp only
  rw [if_pos rfl, if_pos rfl, h1]
  dsimp only
  rw [if_neg h2]

/-- Facts packed in `unitOkB` for a plain unit. -/
lemma unitOk_plain (c : Char) (hu : unitOkB (.plain c) = true) :
    ¬ c = '\\' ∧ ¬ (c = '"' ∨ c.toNat < 32) := by
  have h := hu
  simp only [unitOkB, Bool.and_eq_true, Bool.not_eq_eq_eq_not,
    Bool.not_true, decide_eq_false_iff_not] at h
  exact ⟨h.2, h.1⟩

/-- Facts packed in `unitOkB` for an escape unit. -/
lemma unitOk_esc (c : Char) (hu : unitOkB (.esc c) = true) :
    ∃ m, escCharMeaning c = some m := by
  have h : (escCharMeaning c).isSome = true := hu
  exact Option.isSome_iff_exists.mp h

/-- Facts packed in `unitOkB` for a unicode unit. -/
lemma unitOk_uni (d1 d2 d3 d4 : Char)
    (hu : unitOkB (.uni d1 d2 d3 d4) = true) :
    ∃ n, hexVal4 d1 d2 d3 d4 = some n ∧ ¬ (0xD800 ≤ n ∧ n ≤ 0xDFFF) := by
  have h : (match hexVal4 d1 d2 d3 d4 with
      | some n => !(0xD800 ≤ n ∧ n ≤ 0xDFFF : Bool)
      | none => false) = true := hu
  cases hv : hexVal4 d1 d2 d3 d4 with
  | none =>
    rw [hv] at h
    exact absurd h (by simp)
  | some n =>
    rw [hv] at h
    refine ⟨n, rfl, ?_⟩
    simp only [Bool.not_eq_eq_eq_not, Bool.not_true, decide_eq_false_iff_not]
      at h
    exact h

/-- Parsing a well-formed body followed by anything: the body decodes unit by
unit and parsing continues on the remainder. -/
lemma jsonUnescape_units_append (us : List EscUnit) :
    ∀ (B : List Char), (∀ u ∈ us, unitOkB u = true) →
      jsonUnescape (escOf us ++ B)
        = (jsonUnescape B).map (fun t => decodeUnits us ++ t) := by
  induction us with
  | nil =>
    intro B _
    rw [escOf_nil, List.nil_append]
    cases jsonUnescape B <;> simp [decodeUnits]
  | cons u rest ih =>
    intro B hok
    have hu : unitOkB u = true := hok u (by simp)
    have hrest : ∀ v ∈ rest, unitOkB v = true :=
      fun v hv => hok v (by simp [hv])
    rw [escOf_cons, List.append_assoc]
    have hdec : decodeUnits (u :: rest) = decodeUnit u :: decodeUnits rest := by
      simp [decodeUnits]
    cases u with
    | plain c =>
      obtain ⟨hb, hq⟩ := unitOk_plain c hu
      show jsonUnescape (c :: (escOf rest ++ B)) = _
      rw [jsonUnescape_cons_plain c _ hb hq, ih B hrest, hdec]
      cases jsonUnescape B <;> simp [decodeUnit]
    | esc c =>
      obtain ⟨m, hm⟩ := unitOk_esc c hu
      show jsonUnescape ('\\' :: c :: (escOf rest ++ B)) = _
      rw [jsonUnescape_cons_esc c m _ hm, ih B hrest, hdec]
      have hdc : decodeUnit (.esc c) = m := by
        simp [decodeUnit, hm]
      rw [hdc]
      cases jsonUnescape B <;> simp
    | uni d1 d2 d3 d4 =>
      obtain ⟨n, hn, hsur⟩ := unitOk_uni d1 d2 d3 d4 hu
      show jsonUnescape ('\\' :: 'u' :: d1 :: d2 :: d3 :: d4 ::
        (escOf rest ++ B)) = _
      rw [jsonUnescape_cons_uni d1 d2 d3 d4 n _ hn hsur, ih B hrest, hdec]
      have hdc : decodeUnit (.uni d1 d2 d3 d4) = Char.ofNat n := by
        simp [decodeUnit, hn]
      rw [hdc]
      cases jsonUnescape B <;> simp

/-- Round trip: a well-formed body parses to its decoded value. -/
lemma jsonUnescape_escOf (us : List EscUnit)
    (hok : ∀ u ∈ us, unitOkB u = true) :
    jsonUnescape (escOf us) = some (decodeUnits us) := by
  have := jsonUnescape_units_append us [] hok
  rw [List.append_nil] at this
  rw [this]
  simp [jsonUnescape]

/-! ### The key-search phase of the decoder over rendered JSON -/

/-- The decoder states reachable during the key search: all scratch fields
are still at their initial values. -/
def searchState (k : Nat) : DecoderState :=
  ⟨.SearchingKey, k, [], false, 0, 0, []⟩

def afterKeyState : DecoderState := ⟨.AfterKey, 0, [], false, 0, 0, []⟩

def waitingState : DecoderState := ⟨.WaitingForStringStart, 0, [], false, 0, 0, []⟩

/-- The state right after the value's opening quote. -/
def collectingStart : DecoderState := ⟨.Collecting, 0, [], false, 0, 0, []⟩

lemma initial_eq_searchState : initialDecoderState = searchState 0 := rfl

/-- A usable field name: non-empty and free of the quote, the backslash and
the six JSON structural characters, so that the literal pattern
`"fieldName"` cannot straddle tokens of the rendered text. -/
def GoodField (F : List Char) : Prop :=
  F ≠ [] ∧ ∀ c ∈ F, c ≠ '"' ∧ c ≠ '\\' ∧ c ≠ ',' ∧ c ≠ ':' ∧
    c ≠ '{' ∧ c ≠ '}' ∧ c ≠ '[' ∧ c ≠ ']'

lemma keyPattern_length (F : List Char) :
    (keyPattern F).length = F.length + 2 := by
  simp [keyPattern]

lemma keyPattern_zero (F : List Char) : (keyPattern F)[0]? = some '"' := by
  simp [keyPattern]

lemma keyPattern_last (F : List Char) :
    (keyPattern F)[F.length + 1]? = some '"' := by
  show ('"' :: (F ++ ['"']))[F.length + 1]? = some '"'
  rw [List.getElem?_cons_succ]
  rw [List.getElem?_append_right (by omega)]
  simp

lemma keyPattern_mid (F : List Char) (j : Nat) (h : j < F.length) :
    (keyPattern F)[j + 1]? = F[j]? := by
  show ('"' :: (F ++ ['"']))[j + 1]? = F[j]?
  rw [List.getElem?_cons_succ]
  rw [List.getElem?_append, if_pos h]

lemma keyPattern_mem (F : List Char) (c : Char) (k : Nat)
    (h : (keyPattern F)[k]? = some c) : c = '"' ∨ c ∈ F := by
  have hmem : c ∈ keyPattern F := by
    rcases List.getElem?_eq_some.mp h with ⟨hk, he⟩
    exact he ▸ List.getElem_mem hk
  simp only [keyPattern, List.mem_cons, List.mem_append,
    List.mem_singleton] at hmem
  tauto

/-- Single search step, successful partial match. -/
lemma searchStep_match (F : List Char) (k : Nat) (c : Char)
    (h : (keyPattern F)[k]? = some c)
    (hne : ¬ (k + 1 = (keyPattern F).length)) :
    processChar F (searchState k) c = (searchState (k + 1), []) := by
  rw [processChar_search F _ c rfl]
  show (processKeyChar F (searchState k) c, ([] : List DecoderEvent)) = _
  unfold processKeyChar
  rw [show (searchState k).keyIndex = k from rfl, if_pos h, if_neg hne]
  rfl

/-- Single search step, full pattern match. -/
lemma searchStep_full (F : List Char) (k : Nat) (c : Char)
    (h : (keyPattern F)[k]? = some c)
    (heq : k + 1 = (keyPattern F).length) :
    processChar F (searchState k) c = (afterKeyState, []) := by
  rw [processChar_search F _ c rfl]
  show (processKeyChar F (searchState k) c, ([] : List DecoderEvent)) = _
  unfold processKeyChar
  rw [show (searchState k).keyIndex = k from rfl, if_pos h, if_pos heq]
  rfl

/-- Single search step, mismatch: the character restarts the match. -/
lemma searchStep_miss (F : List Char) (k : Nat) (c : Char)
    (h : ¬ (keyPattern F)[k]? = some c) :
    processChar F (searchState k) c
      = (searchState (if c = '"' then 1 else 0), []) := by
  rw [processChar_search F _ c rfl]
  show (processKeyChar F (searchState k) c, ([] : List DecoderEvent)) = _
  unfold processKeyChar
  rw [show (searchState k).keyIndex = k from rfl, if_neg h]
  by_cases hq : c = '"'
  · subst hq
    rw [if_pos (keyPattern_zero F), if_pos rfl]
    rfl
  · have hm0 : ¬ (keyPattern F)[0]? = some c := by
      rw [keyPattern_zero]
      intro hcon
      exact hq (by injection hcon with h3; exact h3.symm)
    rw [if_neg hm0, if_neg hq]
    rfl

/-- A non-quote character keeps the search at index zero. -/
lemma searchStep_zero (F : List Char) (c : Char) (h : ¬ c = '"') :
    processChar F (searchState 0) c = (searchState 0, []) := by
  have hm : ¬ (keyPattern F)[0]? = some c := by
    rw [keyPattern_zero]
    intro hcon
    exact h (by injection hcon with h2; exact h2.symm)
  rw [searchStep_miss F 0 c hm, if_neg h]

lemma afterKey_colon (F : List Char) :
    processChar F afterKeyState ':' = (waitingState, []) := by
  rw [processChar_afterKey F _ ':' rfl]
  unfold processPostKeyChar
  rw [if_pos rfl]
  rfl

/-- A non-colon, non-whitespace character after a matched key: reset and
re-process that character. -/
lemma afterKey_other (F : List Char) (c : Char) (h1 : ¬ c = ':')
    (h2 : isJsWhitespace c = false) :
    processChar F afterKeyState c
      = (searchState (if c = '"' then 1 else 0), []) := by
  rw [processChar_afterKey F _ c rfl]
  unfold processPostKeyChar
  rw [if_neg h1, h2]
  show (resetSearchAndReprocess F afterKeyState c, ([] : List DecoderEvent)) = _
  unfold resetSearchAndReprocess processKeyChar
  dsimp only
  by_cases hc : c = '"'
  · subst hc
    rw [if_pos (keyPattern_zero F)]
    have hne : ¬ (0 + 1 = (keyPattern F).length) := by
      rw [keyPattern_length]
      omega
    rw [if_neg hne, if_pos rfl]
    rfl
  · have hm : ¬ (keyPattern F)[0]? = some c := by
      rw [keyPattern_zero]
      intro hcon
      exact hc (by injection hcon with h3; exact h3.symm)
    rw [if_neg hm, if_neg hm, if_neg hc]
    rfl

lemma waiting_quote (F : List Char) :
    processChar F waitingState '"' = (collectingStart, []) := by
  rw [processChar_waiting F _ '"' rfl]
  unfold processStringStartChar
  rw [show isJsWhitespace '"' = false from rfl]
  rw [if_pos rfl]
  rfl

lemma waiting_other (F : List Char) (c : Char) (h1 : isJsWhitespace c = false)
    (h2 : ¬ c = '"') :
    processChar F waitingState c = (searchState 0, []) := by
  rw [processChar_waiting F _ c rfl]
  unfold processStringStartChar
  rw [h1]
  have hm : ¬ (keyPattern F)[0]? = some c := by
    rw [keyPattern_zero]
    intro hcon
    exact h2 (by injection hcon with h3; exact h3.symm)
  simp only [Bool.false_eq_true, if_false, ite_false]
  rw [if_neg h2]
  unfold resetSearchAndReprocess processKeyChar
  dsimp only
  rw [if_neg hm, if_neg hm]
  rfl

lemma searchState_ne_complete (k : Nat) :
    ¬ (searchState k).stage = FieldStage.Complete := by
  rw [show (searchState k).stage = FieldStage.SearchingKey from rfl]
  simp

/-- Quote-free text is transparent to the search. -/
lemma run_no_quote (F : List Char) (T : List Char)
    (h : ∀ c ∈ T, ¬ c = '"') :
    processChunk F (searchState 0) T = (searchState 0, []) := by
  induction T with
  | nil => rfl
  | cons c rest ih =>
    rw [processChunk_cons F _ c rest (searchState_ne_complete 0)]
    rw [searchStep_zero F c (h c (by simp))]
    rw [ih (fun x hx => h x (by simp [hx]))]
    rfl

/-- Hex digit characters are not quotes. -/
lemma hexDigit_ne_quote (d : Char) (h : (hexDigitVal d).isSome = true) :
    ¬ d = '"' := by
  intro hcon
  subst hcon
  exact absurd h (by decide)

lemma hexVal4_isSome (d1 d2 d3 d4 : Char) (n : Nat)
    (h : hexVal4 d1 d2 d3 d4 = some n) :
    (hexDigitVal d1).isSome = true ∧ (hexDigitVal d2).isSome = true
    ∧ (hexDigitVal d3).isSome = true ∧ (hexDigitVal d4).isSome = true := by
  unfold hexVal4 at h
  cases h1 : hexDigitVal d1 <;> rw [h1] at h
  · exact absurd h (by simp)
  cases h2 : hexDigitVal d2 <;> rw [h2] at h
  · exact absurd h (by simp)
  cases h3 : hexDigitVal d3 <;> rw [h3] at h
  · exact absurd h (by simp)
  cases h4 : hexDigitVal d4 <;> rw [h4] at h
  · exact absurd h (by simp)
  exact ⟨by simp [h1], by simp [h2], by simp [h3], by simp [h4]⟩

/-- One step of the search automaton at the level of escape units. -/
def unitK (F : List Char) (k : Nat) (u : EscUnit) : Nat :=
  match u with
  | .plain c => if (keyPattern F)[k]? = some c then k + 1 else 0
  | .esc c => if c = '"' then 1 else 0
  | .uni _ _ _ _ => 0

/-- The backslash never matches any position of the key pattern. -/
lemma backslash_no_match (F : List Char) (hF : GoodField F) (k : Nat) :
    ¬ (keyPattern F)[k]? = some '\\' := by
  intro h
  rcases keyPattern_mem F '\\' k h with h1 | h1
  · exact absurd h1 (by decide)
  · exact (hF.2 '\\' h1).2.1 rfl

/-- Running one escape unit through the search automaton. -/
lemma run_unit_search (F : List Char) (hF : GoodField F) (u : EscUnit)
    (k : Nat) (hu : unitOkB u = true) :
    processChunk F (searchState k) (escOfUnit u)
      = (searchState (unitK F k u), []) := by
  have hq1 : ∀ (c : Char), ¬ c = '"' →
      processChunk F (searchState 0) [c] = (searchState 0, []) := by
    intro c hc
    rw [show ([c] : List Char) = c :: [] from rfl,
      processChunk_cons F _ c [] (searchState_ne_complete 0),
      searchStep_zero F c hc]
    rfl
  cases u with
  | plain c =>
    obtain ⟨hb, hq0⟩ := unitOk_plain c hu
    have hq : ¬ c = '"' := fun hcon => hq0 (Or.inl hcon)
    show processChunk F (searchState k) (c :: []) = _
    rw [processChunk_cons F _ c [] (searchState_ne_complete k)]
    by_cases hm : (keyPattern F)[k]? = some c
    · have hne : ¬ (k + 1 = (keyPattern F).length) := by
        intro heq
        have hk : k = F.length + 1 := by
          rw [keyPattern_length] at heq
          omega
        rw [hk, keyPattern_last] at hm
        exact hq (by injection hm with h3; exact h3.symm)
      rw [searchStep_match F k c hm hne]
      have : unitK F k (.plain c) = k + 1 := by
        simp only [unitK]
        rw [if_pos hm]
      rw [this]
      rfl
    · rw [searchStep_miss F k c hm]
      have : unitK F k (.plain c) = 0 := by
        simp only [unitK]
        rw [if_neg hm]
      rw [this, if_neg hq]
      rfl
  | esc c =>
    show processChunk F (searchState k) ('\\' :: [c]) = _
    rw [processChunk_cons F _ '\\' [c] (searchState_ne_complete k),
      searchStep_miss F k '\\' (backslash_no_match F hF k),
      if_neg (by decide : ¬ ('\\' : Char) = '"')]
    by_cases hc : c = '"'
    · subst hc
      rw [show (['"'] : List Char) = '"' :: [] from rfl,
        processChunk_cons F _ '"' [] (searchState_ne_complete 0),
        searchStep_match F 0 '"' (keyPattern_zero F)
          (by rw [keyPattern_length]; omega)]
      have : unitK F k (.esc '"') = 1 := by
        simp [unitK]
      rw [this]
      rfl
    · rw [hq1 c hc]
      have : unitK F k (.esc c) = 0 := by
        simp only [unitK]
        rw [if_neg hc]
      rw [this]
      rfl
  | uni d1 d2 d3 d4 =>
    obtain ⟨n, hn, _⟩ := unitOk_uni d1 d2 d3 d4 hu
    obtain ⟨hh1, hh2, hh3, hh4⟩ := hexVal4_isSome d1 d2 d3 d4 n hn
    show processChunk F (searchState k)
      ('\\' :: 'u' :: d1 :: d2 :: d3 :: d4 :: []) = _
    rw [processChunk_cons F _ '\\' _ (searchState_ne_complete k),
      searchStep_miss F k '\\' (backslash_no_match F hF k),
      if_neg (by decide : ¬ ('\\' : Char) = '"')]
    rw [processChunk_cons F _ 'u' _ (searchState_ne_complete 0),
      searchStep_zero F 'u' (by decide)]
    rw [processChunk_cons F _ d1 _ (searchState_ne_complete 0),
      searchStep_zero F d1 (hexDigit_ne_quote d1 hh1)]
    rw [processChunk_cons F _ d2 _ (searchState_ne_complete 0),
      searchStep_zero F d2 (hexDigit_ne_quote d2 hh2)]
    rw [processChunk_cons F _ d3 _ (searchState_ne_complete 0),
      searchStep_zero F d3 (hexDigit_ne_quote d3 hh3)]
    rw [processChunk_cons F _ d4 _ (searchState_ne_complete 0),
      searchStep_zero F d4 (hexDigit_ne_quote d4 hh4)]
    rfl

/-- Running a whole body through the search automaton: the end position is
the fold of `unitK` and no notification is emitted. -/
lemma run_units_search (F : List Char) (hF : GoodField F) :
    ∀ (us : List EscUnit) (k : Nat), (∀ u ∈ us, unitOkB u = true) →
      processChunk F (searchState k) (escOf us)
        = (searchState (us.foldl (unitK F) k), []) := by
  intro us
  induction us with
  | nil => intro k _; rfl
  | cons u rest ih =>
    intro k hok
    rw [escOf_cons, processChunk_append,
      run_unit_search F hF u k (hok u (by simp)),
      ih (unitK F k u) (fun v hv => hok v (by simp [hv]))]
    rfl

/-- The automaton position never exceeds one short of the pattern length. -/
lemma unitK_bound (F : List Char) (hF : GoodField F) (u : EscUnit) (k : Nat)
    (hu : unitOkB u = true) (hk : k ≤ F.length + 1) :
    unitK F k u ≤ F.length + 1 := by
  cases u with
  | plain c =>
    obtain ⟨_, hq0⟩ := unitOk_plain c hu
    have hq : ¬ c = '"' := fun hcon => hq0 (Or.inl hcon)
    simp only [unitK]
    by_cases hm : (keyPattern F)[k]? = some c
    · rw [if_pos hm]
      by_contra hcon
      have hk2 : k = F.length + 1 := by omega
      rw [hk2, keyPattern_last] at hm
      exact hq (by injection hm with h3; exact h3.symm)
    · rw [if_neg hm]
      omega
  | esc c =>
    simp only [unitK]
    split <;> omega
  | uni d1 d2 d3 d4 =>
    simp only [unitK]
    omega

lemma kUnits_bound (F : List Char) (hF : GoodField F) :
    ∀ (us : List EscUnit) (k : Nat), (∀ u ∈ us, unitOkB u = true) →
      k ≤ F.length + 1 → us.foldl (unitK F) k ≤ F.length + 1 := by
  intro us
  induction us with
  | nil => intro k _ hk; exact hk
  | cons u rest ih =>
    intro k hok hk
    rw [List.foldl_cons]
    exact ih (unitK F k u) (fun v hv => hok v (by simp [hv]))
      (unitK_bound F hF u k (hok u (by simp)) hk)

/-- The suffix shapes a body can have when the automaton sits at position
`1 + j` after it: the body is a plain prefix of the field name, or it ends
with an escaped quote followed by a plain prefix of the field name. -/
def SufP (F : List Char) (us : List EscUnit) (j : Nat) : Prop :=
  us = (F.take j).map .plain
  ∨ ∃ pre, us = pre ++ .esc '"' :: (F.take j).map .plain

/-- Soundness of the automaton position: a position `j + 1` after a body
certifies the suffix shape `SufP`. -/
lemma kUnits_sound (F : List Char) (hF : GoodField F) :
    ∀ (us : List EscUnit), (∀ u ∈ us, unitOkB u = true) →
      ∀ j, us.foldl (unitK F) 1 = j + 1 → j ≤ F.length ∧ SufP F us j := by
  intro us
  induction us using List.reverseRecOn with
  | nil =>
    intro _ j h
    simp only [List.foldl_nil] at h
    have hj : j = 0 := by omega
    subst hj
    exact ⟨by omega, Or.inl (by simp)⟩
  | append_singleton us u ih =>
    intro hok j h
    rw [List.foldl_append, List.foldl_cons, List.foldl_nil] at h
    have hoku : unitOkB u = true := hok u (by simp)
    have hokus : ∀ v ∈ us, unitOkB v = true := fun v hv => hok v (by simp [hv])
    cases u with
    | plain c =>
      obtain ⟨_, hq0⟩ := unitOk_plain c hoku
      have hq : ¬ c = '"' := fun hcon => hq0 (Or.inl hcon)
      simp only [unitK] at h
      by_cases hm : (keyPattern F)[us.foldl (unitK F) 1]? = some c
      · rw [if_pos hm] at h
        have hkp : us.foldl (unitK F) 1 = j := by omega
        rw [hkp] at hm
        by_cases hj0 : j = 0
        · subst hj0
          rw [keyPattern_zero] at hm
          exact absurd (by injection hm with h3; exact h3.symm) hq
        · obtain ⟨j2, rfl⟩ : ∃ j2, j = j2 + 1 :=
            ⟨j - 1, by omega⟩
          obtain ⟨hle, hsuf⟩ := ih hokus j2 (by omega)
          have hjlt : j2 + 1 ≤ F.length := by
            by_contra hge
            push_neg at hge
            have hj2 : j2 + 1 = F.length + 1 := by
              have hlt : j2 + 1 < (keyPattern F).length := by
                rcases List.getElem?_eq_some.mp hm with ⟨hk2, _⟩
                exact hk2
              rw [keyPattern_length] at hlt
              omega
            rw [hj2, keyPattern_last] at hm
            exact hq (by injection hm with h3; exact h3.symm)
          have hget : F[j2]? = some c := by
            rw [← keyPattern_mid F j2 (by omega)]
            exact hm
          have htake : F.take (j2 + 1) = F.take j2 ++ [c] := by
            rw [List.take_succ, hget]
            rfl
          refine ⟨hjlt, ?_⟩
          rcases hsuf with h1 | ⟨pre, h1⟩
          · left
            rw [h1, htake]
            simp
          · right
            refine ⟨pre, ?_⟩
            rw [h1, htake]
            simp
      · rw [if_neg hm] at h
        omega
    | esc c =>
      simp only [unitK] at h
      by_cases hc : c = '"'
      · rw [if_pos hc] at h
        have hj : j = 0 := by omega
        subst hj
        subst hc
        exact ⟨by omega, Or.inr ⟨us, by simp⟩⟩
      · rw [if_neg hc] at h
        omega
    | uni d1 d2 d3 d4 =>
      simp only [unitK] at h
      omega

/-- Completeness on aligned plain suffixes: matching the remainder of the
field name drives the automaton to the end of the pattern. -/
lemma kUnits_aligned (F : List Char) :
    ∀ (l : List Char) (j : Nat), F.drop j = l → j ≤ F.length →
      (l.map EscUnit.plain).foldl (unitK F) (j + 1) = F.length + 1 := by
  intro l
  induction l with
  | nil =>
    intro j hdrop hle
    have hge : F.length ≤ j := List.drop_eq_nil_iff.mp hdrop
    have hj : j = F.length := by omega
    rw [hj]
    rfl
  | cons c l2 ih =>
    intro j hdrop _
    have hget : F[j]? = some c := by
      rw [← List.head?_drop, hdrop]
      rfl
    have hjlt : j < F.length := by
      by_contra hge
      push_neg at hge
      rw [List.drop_eq_nil_of_le hge] at hdrop
      simp at hdrop
    have hdrop2 : F.drop (j + 1) = l2 := by
      have h1 : F.drop (j + 1) = (F.drop j).drop 1 := by
        rw [List.drop_drop, Nat.add_comm]
      rw [h1, hdrop]
      rfl
    simp only [List.map_cons, List.foldl_cons]
    have hstep : unitK F (j + 1) (.plain c) = j + 1 + 1 := by
      simp only [unitK]
      rw [if_pos (by rw [keyPattern_mid F j hjlt]; exact hget)]
    rw [hstep]
    exact ih (j + 1) hdrop2 (by omega)

/-- The two body shapes after which the closing quote completes the key
pattern: the body is exactly the field name, or ends with an escaped quote
followed by the field name. -/
def SufFull (F : List Char) (us : List EscUnit) : Prop :=
  us = F.map .plain ∨ ∃ pre, us = pre ++ .esc '"' :: F.map .plain

lemma kUnits_full_of_suf (F : List Char) (us : List EscUnit)
    (h : SufFull F us) : us.foldl (unitK F) 1 = F.length + 1 := by
  have hmap : (F.map EscUnit.plain).foldl (unitK F) 1 = F.length + 1 := by
    have := kUnits_aligned F F 0 (by simp) (by omega)
    simpa using this
  rcases h with h | ⟨pre, h⟩
  · rw [h]
    exact hmap
  · rw [h, List.foldl_append, List.foldl_cons]
    have h1 : unitK F (pre.foldl (unitK F) 1) (.esc '"') = 1 := by
      simp [unitK]
    rw [h1]
    exact hmap

/-- The raw characters of a string token with body `us`. -/
def strToken (us : List EscUnit) : List Char :=
  '"' :: escOf us ++ ['"']

/-- A string token whose body is the field name or hides the pattern in its
tail leaves the search in `AfterKey`. -/
lemma strToken_run_suf (F : List Char) (hF : GoodField F)
    (us : List EscUnit) (hok : ∀ u ∈ us, unitOkB u = true)
    (hsuf : SufFull F us) :
    processChunk F (searchState 0) (strToken us) = (afterKeyState, []) := by
  unfold strToken
  rw [List.cons_append]
  rw [processChunk_cons F (searchState 0) '"' (escOf us ++ ['"'])
    (searchState_ne_complete 0)]
  rw [searchStep_match F 0 '"' (keyPattern_zero F)
      (by rw [keyPattern_length]; omega),
    processChunk_append, run_units_search F hF us 1 hok,
    kUnits_full_of_suf F us hsuf]
  rw [show (['"'] : List Char) = '"' :: [] from rfl,
    processChunk_cons F _ '"' [] (searchState_ne_complete _),
    searchStep_full F (F.length + 1) '"' (keyPattern_last F)
      (by rw [keyPattern_length])]
  rfl

/-- A string token without the hidden-pattern shape leaves the search at
position 1 (its own closing quote restarting the match). -/
lemma strToken_run_notsuf (F : List Char) (hF : GoodField F)
    (us : List EscUnit) (hok : ∀ u ∈ us, unitOkB u = true)
    (hsuf : ¬ SufFull F us) :
    processChunk F (searchState 0) (strToken us) = (searchState 1, []) := by
  unfold strToken
  rw [List.cons_append]
  rw [processChunk_cons F (searchState 0) '"' (escOf us ++ ['"'])
    (searchState_ne_complete 0)]
  rw [searchStep_match F 0 '"' (keyPattern_zero F)
      (by rw [keyPattern_length]; omega),
    processChunk_append, run_units_search F hF us 1 hok]
  have hb : us.foldl (unitK F) 1 ≤ F.length + 1 :=
    kUnits_bound F hF us 1 hok (by omega)
  have hne : ¬ (us.foldl (unitK F) 1 = F.length + 1) := by
    intro hcon
    obtain ⟨_, hsufp⟩ := kUnits_sound F hF us hok F.length
      (by rw [hcon])
    apply hsuf
    rcases hsufp with h1 | ⟨pre, h1⟩
    · left
      rw [h1, List.take_length]
    · right
      exact ⟨pre, by rw [h1, List.take_length]⟩
  have hclose : processChar F (searchState (us.foldl (unitK F) 1)) '"'
      = (searchState 1, []) := by
    by_cases h0 : us.foldl (unitK F) 1 = 0
    · rw [h0]
      rw [searchStep_match F 0 '"' (keyPattern_zero F)
        (by rw [keyPattern_length]; omega)]
    · obtain ⟨j, hj⟩ : ∃ j, us.foldl (unitK F) 1 = j + 1 :=
        ⟨us.foldl (unitK F) 1 - 1, by omega⟩
      have hjlt : j < F.length := by omega
      have hmid : (keyPattern F)[j + 1]? = F[j]? := keyPattern_mid F j hjlt
      obtain ⟨cj, hcj⟩ : ∃ cj, F[j]? = some cj := by
        rcases hg : F[j]? with _ | cj
        · exact absurd (List.getElem?_eq_none_iff.mp hg) (by omega)
        · exact ⟨cj, rfl⟩
      have hcmem : cj ∈ F := by
        rcases List.getElem?_eq_some.mp hcj with ⟨hk2, he⟩
        exact he ▸ List.getElem_mem hk2
      have hmiss : ¬ (keyPattern F)[j + 1]? = some '"' := by
        rw [hmid, hcj]
        intro hcon
        exact (hF.2 cj hcmem).1 (by injection hcon)
      rw [hj]
      rw [searchStep_miss F (j + 1) '"' hmiss, if_pos rfl]
  rw [show (['"'] : List Char) = '"' :: [] from rfl,
    processChunk_cons F _ '"' [] (searchState_ne_complete _), hclose]
  rfl

/-! ### The collecting phase over a rendered string value -/

/-- The decoder state after collecting the units `done` of the value body:
the buffer holds their raw text, everything decoded so far has been
emitted. -/
def collState (done : List EscUnit) : DecoderState :=
  ⟨.Collecting, 0, escOf done, false, 0,
   (decodeUnits done).length, decodeUnits done⟩

lemma collState_nil : collState [] = collectingStart := rfl

lemma collState_ne_complete (done : List EscUnit) :
    ¬ (collState done).stage = FieldStage.Complete := by
  rw [show (collState done).stage = FieldStage.Collecting from rfl]
  simp

/-- The delta notifications of a collecting run: one per unit, each carrying
the single decoded character and the full decoded value so far. -/
def collectEvents (F : List Char) (done : List EscUnit) :
    List EscUnit → List DecoderEvent
  | [] => []
  | u :: rest =>
    .delta F [decodeUnit u] (decodeUnits (done ++ [u]))
      :: collectEvents F (done ++ [u]) rest

lemma emitDelta_units (F : List Char) (done : List EscUnit) (u : EscUnit)
    (B : List Char) (hok : ∀ v ∈ done ++ [u], unitOkB v = true)
    (hB : B = escOf (done ++ [u])) :
    emitDelta F ⟨.Collecting, 0, B, false, 0,
        (decodeUnits done).length, decodeUnits done⟩
      = (collState (done ++ [u]),
         [.delta F [decodeUnit u] (decodeUnits (done ++ [u]))]) := by
  subst hB
  have hne : escOf (done ++ [u]) ≠ [] := by
    rw [escOf_append]
    cases u <;> simp [escOf, escOfUnit]
  have hdec : decodeUnits (done ++ [u])
      = decodeUnits done ++ [decodeUnit u] := by
    simp [decodeUnits]
  have hlen : (decodeUnits done).length
      < (decodeUnits (done ++ [u])).length := by
    rw [hdec]
    simp
  have hdrop : (decodeUnits (done ++ [u])).drop (decodeUnits done).length
      = [decodeUnit u] := by
    rw [hdec]
    exact List.drop_left _ _
  unfold emitDelta
  dsimp only
  rw [if_neg hne, jsonUnescape_escOf (done ++ [u]) hok]
  dsimp only
  rw [if_pos hlen, hdrop]
  rfl

/-- Collecting one unit of the value body: the unit is buffered and exactly
one delta notification fires, carrying its decoded character. -/
lemma coll_unit_step (F : List Char) (done : List EscUnit) (u : EscUnit)
    (hok : ∀ v ∈ done ++ [u], unitOkB v = true) :
    processChunk F (collState done) (escOfUnit u)
      = (collState (done ++ [u]),
         [.delta F [decodeUnit u] (decodeUnits (done ++ [u]))]) := by
  have hu : unitOkB u = true := hok u (by simp)
  cases u with
  | plain c =>
    obtain ⟨hb, hq0⟩ := unitOk_plain c hu
    have hq : ¬ c = '"' := fun hcon => hq0 (Or.inl hcon)
    have hstep : processChar F (collState done) c
        = emitDelta F ⟨.Collecting, 0, escOf done ++ [c], false, 0,
            (decodeUnits done).length, decodeUnits done⟩ := by
      rw [processChar_collecting F _ c rfl]
      show processValueChar F (collState done) c = _
      unfold processValueChar
      rw [if_neg (by exact Nat.lt_irrefl 0 :
        ¬ (0 < (collState done).unicodeDigitsRemaining))]
      rw [if_neg (by exact Bool.false_ne_true :
        ¬ ((collState done).escapeActive = true))]
      rw [if_neg hb, if_neg hq]
      rfl
    show processChunk F (collState done) (c :: []) = _
    rw [processChunk_cons F _ c [] (collState_ne_complete done), hstep,
      emitDelta_units F done (.plain c) (escOf done ++ [c]) hok
        (by rw [escOf_append]; rfl)]
    rfl
  | esc c =>
    obtain ⟨m, hm⟩ := unitOk_esc c hu
    have hcu : ¬ c = 'u' := by
      intro hcon
      rw [hcon] at hm
      simp [escCharMeaning] at hm
    have hstep1 : processChar F (collState done) '\\'
        = (⟨.Collecting, 0, escOf done ++ ['\\'], true, 0,
            (decodeUnits done).length, decodeUnits done⟩, []) := rfl
    have hstep2 : processChar F
        (⟨.Collecting, 0, escOf done ++ ['\\'], true, 0,
          (decodeUnits done).length, decodeUnits done⟩ : DecoderState) c
        = emitDelta F ⟨.Collecting, 0, (escOf done ++ ['\\']) ++ [c], false, 0,
            (decodeUnits done).length, decodeUnits done⟩ := by
      rw [processChar_collecting F _ c rfl]
      show processValueChar F _ c = _
      unfold processValueChar
      rw [if_neg (by exact Nat.lt_irrefl 0 :
        ¬ (0 < (⟨.Collecting, 0, escOf done ++ ['\\'], true, 0,
          (decodeUnits done).length,
          decodeUnits done⟩ : DecoderState).unicodeDigitsRemaining))]
      rw [if_pos (by exact rfl :
        ((⟨.Collecting, 0, escOf done ++ ['\\'], true, 0,
          (decodeUnits done).length,
          decodeUnits done⟩ : DecoderState).escapeActive = true))]
      rw [if_neg hcu]
    show processChunk F (collState done) ('\\' :: c :: []) = _
    rw [processChunk_cons F _ '\\' _ (collState_ne_complete done), hstep1,
      processChunk_cons F _ c [] (fun h => FieldStage.noConfusion h), hstep2,
      emitDelta_units F done (.esc c) ((escOf done ++ ['\\']) ++ [c]) hok
        (by rw [escOf_append, List.append_assoc]; rfl)]
    rfl
  | uni d1 d2 d3 d4 =>
    have hstep1 : processChar F (collState done) '\\'
        = (⟨.Collecting, 0, escOf done ++ ['\\'], true, 0,
            (decodeUnits done).length, decodeUnits done⟩, []) := rfl
    have hstep2 : processChar F
        (⟨.Collecting, 0, escOf done ++ ['\\'], true, 0,
          (decodeUnits done).length, decodeUnits done⟩ : DecoderState) 'u'
        = (⟨.Collecting, 0, escOf done ++ ['\\'] ++ ['u'], true, 4,
            (decodeUnits done).length, decodeUnits done⟩, []) := rfl
    have hd : ∀ (B : List Char) (r : Nat) (d : Char), 0 < r → ¬ (r - 1 = 0) →
        processChar F (⟨.Collecting, 0, B, true, r,
          (decodeUnits done).length, decodeUnits done⟩ : DecoderState) d
        = (⟨.Collecting, 0, B ++ [d], true, r - 1,
            (decodeUnits done).length, decodeUnits done⟩, []) := by
      intro B r d hr hr1
      rw [processChar_collecting F _ d rfl]
      show processValueChar F _ d = _
      unfold processValueChar
      rw [if_pos (by exact hr :
        0 < (⟨.Collecting, 0, B, true, r, (decodeUnits done).length,
          decodeUnits done⟩ : DecoderState).unicodeDigitsRemaining)]
      rw [if_neg (by exact hr1)]
    have hlast : ∀ (B : List Char) (d : Char),
        processChar F (⟨.Collecting, 0, B, true, 1,
          (decodeUnits done).length, decodeUnits done⟩ : DecoderState) d
        = emitDelta F ⟨.Collecting, 0, B ++ [d], false, 0,
            (decodeUnits done).length, decodeUnits done⟩ := by
      intro B d
      rw [processChar_collecting F _ d rfl]
      show processValueChar F _ d = _
      unfold processValueChar
      rw [if_pos (by exact Nat.zero_lt_one :
        0 < (⟨.Collecting, 0, B, true, 1, (decodeUnits done).length,
          decodeUnits done⟩ : DecoderState).unicodeDigitsRemaining)]
      rw [if_pos (by exact rfl)]
      rfl
    show processChunk F (collState done)
      ('\\' :: 'u' :: d1 :: d2 :: d3 :: d4 :: []) = _
    rw [processChunk_cons F _ '\\' _ (collState_ne_complete done), hstep1,
      processChunk_cons F _ 'u' _ (fun h => FieldStage.noConfusion h), hstep2,
      processChunk_cons F _ d1 _ (fun h => FieldStage.noConfusion h),
      hd _ 4 d1 (by omega) (by omega),
      processChunk_cons F _ d2 _ (fun h => FieldStage.noConfusion h),
      hd _ 3 d2 (by omega) (by omega),
      processChunk_cons F _ d3 _ (fun h => FieldStage.noConfusion h),
      hd _ 2 d3 (by omega) (by omega),
      processChunk_cons F _ d4 [] (fun h => FieldStage.noConfusion h),
      hlast _ d4,
      emitDelta_units F done (.uni d1 d2 d3 d4)
        (escOf done ++ ['\\'] ++ ['u'] ++ [d1] ++ [d2] ++ [d3] ++ [d4]) hok
        (by rw [escOf_append]; simp [escOf, escOfUnit])]
    rfl



/-- Collecting a whole body: one delta per unit. -/
lemma coll_run (F : List Char) :
    ∀ (us done : List EscUnit), (∀ v ∈ done ++ us, unitOkB v = true) →
      processChunk F (collState done) (escOf us)
        = (collState (done ++ us), collectEvents F done us) := by
  intro us
  induction us with
  | nil =>
    intro done _
    rw [escOf_nil, processChunk_nil]
    simp [collectEvents]
  | cons u rest ih =>
    intro done hok
    rw [escOf_cons, processChunk_append]
    have hok1 : ∀ v ∈ done ++ [u], unitOkB v = true := by
      intro v hv
      apply hok
      rcases List.mem_append.mp hv with h | h
      · exact List.mem_append.mpr (Or.inl h)
      · rw [List.mem_singleton] at h
        subst h
        exact List.mem_append.mpr (Or.inr (by simp))
    rw [coll_unit_step F done u hok1]
    have hok2 : ∀ v ∈ (done ++ [u]) ++ rest, unitOkB v = true := by
      intro v hv
      apply hok
      rcases List.mem_append.mp hv with h | h
      · rcases List.mem_append.mp h with h2 | h2
        · exact List.mem_append.mpr (Or.inl h2)
        · rw [List.mem_singleton] at h2
          subst h2
          exact List.mem_append.mpr (Or.inr (by simp))
      · exact List.mem_append.mpr (Or.inr (by simp [h]))
    rw [ih (done ++ [u]) hok2]
    rw [show (done ++ [u]) ++ rest = done ++ u :: rest by simp]
    rfl

/-- The closing quote after a collected body: decode once more (nothing new
to emit), fire the completion notification, complete and clear. -/
lemma coll_finalize (F : List Char) (done : List EscUnit)
    (hok : ∀ v ∈ done, unitOkB v = true) :
    processChar F (collState done) '"'
      = (completeAndClear (collState done),
         [.complete F (decodeUnits done)]) := by
  rw [processChar_collecting F _ '"' rfl]
  show processValueChar F (collState done) '"' = _
  unfold processValueChar
  rw [if_neg (by exact Nat.lt_irrefl 0 :
    ¬ (0 < (collState done).unicodeDigitsRemaining))]
  rw [if_neg (by exact Bool.false_ne_true :
    ¬ ((collState done).escapeActive = true))]
  rw [if_neg (by decide : ¬ (('"' : Char) = '\\')), if_pos rfl]
  unfold finalizeValue
  rw [show (collState done).collectingBuffer = escOf done from rfl,
    jsonUnescape_escOf done hok]
  dsimp only
  rw [if_neg (by
    exact Nat.lt_irrefl _ :
    ¬ ((collState done).lastEmittedLength < (decodeUnits done).length))]

/-- The collecting run of a whole rendered string value from the state just
after its opening quote: deltas for every unit, then the completion. -/
lemma valueToken_run (F : List Char) (us : List EscUnit)
    (hok : ∀ v ∈ us, unitOkB v = true) :
    processChunk F collectingStart (escOf us ++ ['"'])
      = (completeAndClear (collState us),
         collectEvents F [] us ++ [.complete F (decodeUnits us)]) := by
  rw [processChunk_append]
  have h1 : processChunk F collectingStart (escOf us)
      = (collState us, collectEvents F [] us) := by
    rw [← collState_nil]
    have := coll_run F us [] (by simpa using hok)
    simpa using this
  rw [h1]
  rw [show (['"'] : List Char) = '"' :: [] from rfl,
    processChunk_cons F _ '"' [] (collState_ne_complete us),
    coll_finalize F us hok]
  rfl

lemma completeAndClear_stage (s : DecoderState) :
    (completeAndClear s).stage = FieldStage.Complete := rfl

/-- The deltas of a collecting run concatenate to the decoded body. -/
lemma collectEvents_joined (F : List Char) :
    ∀ (us done : List EscUnit),
      joinedDeltas (collectEvents F done us) = decodeUnits us := by
  intro us
  induction us with
  | nil => intro done; rfl
  | cons u rest ih =>
    intro done
    show joinedDeltas (.delta F [decodeUnit u] (decodeUnits (done ++ [u]))
      :: collectEvents F (done ++ [u]) rest) = _
    unfold joinedDeltas deltaTexts
    show ([decodeUnit u]
      :: deltaTexts (collectEvents F (done ++ [u]) rest)).flatten = _
    rw [List.flatten_cons]
    have hihj := ih (done ++ [u])
    unfold joinedDeltas at hihj
    rw [hihj]
    rfl

/-- A collecting run emits no completion notification. -/
lemma collectEvents_completes (F : List Char) :
    ∀ (us done : List EscUnit),
      completeValues (collectEvents F done us) = [] := by
  intro us
  induction us with
  | nil => intro done; rfl
  | cons u rest ih =>
    intro done
    show completeValues (.delta F [decodeUnit u] (decodeUnits (done ++ [u]))
      :: collectEvents F (done ++ [u]) rest) = _
    unfold completeValues
    exact ih (done ++ [u])

/-! ### A grammar of compactly rendered JSON texts

JSON values, lists of array elements and lists of object fields form one
indexed inductive; `render` produces the compact JSON text.  String bodies
are unit lists, so every legal escaping choice inside string literals is
covered. -/

inductive JTag where
  | val
  | vlist
  | flist
deriving DecidableEq

inductive JVal : JTag → Type where
  | str (us : List EscUnit) : JVal .val
  | num (ds : List Char) : JVal .val
  | boolTrue : JVal .val
  | boolFalse : JVal .val
  | nullVal : JVal .val
  | arr (xs : JVal .vlist) : JVal .val
  | obj (fs : JVal .flist) : JVal .val
  | vnil : JVal .vlist
  | vcons (x : JVal .val) (rest : JVal .vlist) : JVal .vlist
  | fnil : JVal .flist
  | fcons (key : List EscUnit) (v : JVal .val) (rest : JVal .flist) :
      JVal .flist
deriving DecidableEq

/-- The compact JSON text of a value (no whitespace outside strings). -/
def render : {t : JTag} → JVal t → List Char
  | _, .str us => strToken us
  | _, .num ds => ds
  | _, .boolTrue => ['t', 'r', 'u', 'e']
  | _, .boolFalse => ['f', 'a', 'l', 's', 'e']
  | _, .nullVal => ['n', 'u', 'l', 'l']
  | _, .arr xs => '[' :: (render xs ++ [']'])
  | _, .obj fs => '{' :: (render fs ++ ['}'])
  | _, .vnil => []
  | _, .vcons x .vnil => render x
  | _, .vcons x (.vcons y r2) => render x ++ ',' :: render (JVal.vcons y r2)
  | _, .fnil => []
  | _, .fcons key v .fnil => strToken key ++ ':' :: render v
  | _, .fcons key v (.fcons k2 v2 r2) =>
    strToken key ++ ':' :: render v ++ ',' :: render (JVal.fcons k2 v2 r2)

/-- JSON number digits (the grammar keeps numbers to digit runs). -/
def digitB (c : Char) : Bool := decide (48 ≤ c.toNat ∧ c.toNat ≤ 57)

/-- Well-formedness of the JSON value: string bodies are legal unit
sequences and numbers are non-empty digit runs. -/
def ValidB : {t : JTag} → JVal t → Bool
  | _, .str us => us.all unitOkB
  | _, .num ds => !ds.isEmpty && ds.all digitB
  | _, .boolTrue => true
  | _, .boolFalse => true
  | _, .nullVal => true
  | _, .arr xs => ValidB xs
  | _, .obj fs => ValidB fs
  | _, .vnil => true
  | _, .vcons x rest => ValidB x && ValidB rest
  | _, .fnil => true
  | _, .fcons key v rest => key.all unitOkB && ValidB v && ValidB rest

/-- Whether a body hides the pattern in its tail (an escaped quote directly
followed by the plain field name). -/
def endsWithQuoteKey (F : List Char) (us : List EscUnit) : Bool :=
  List.isSuffixOf (EscUnit.esc '"' :: F.map .plain) us

/-- No key of the text ends with an escaped quote followed by the field
name (the one shape that makes the byte-level scanner capture the wrong
value). -/
def KeysOkB (F : List Char) : {t : JTag} → JVal t → Bool
  | _, .str _ => true
  | _, .num _ => true
  | _, .boolTrue => true
  | _, .boolFalse => true
  | _, .nullVal => true
  | _, .arr xs => KeysOkB F xs
  | _, .obj fs => KeysOkB F fs
  | _, .vnil => true
  | _, .vcons x rest => KeysOkB F x && KeysOkB F rest
  | _, .fnil => true
  | _, .fcons key v rest =>
    !endsWithQuoteKey F key && KeysOkB F v && KeysOkB F rest

/-- The value of the first — in text order — pair `"F":"string"` of the
JSON value, decoded. -/
def findFirstPair (F : List Char) : {t : JTag} → JVal t → Option (List Char)
  | _, .str _ => none
  | _, .num _ => none
  | _, .boolTrue => none
  | _, .boolFalse => none
  | _, .nullVal => none
  | _, .arr xs => findFirstPair F xs
  | _, .obj fs => findFirstPair F fs
  | _, .vnil => none
  | _, .vcons x rest =>
    (findFirstPair F x).orElse (fun _ => findFirstPair F rest)
  | _, .fnil => none
  | _, .fcons key v rest =>
    if key = F.map .plain then
      match v with
      | .str us => some (decodeUnits us)
      | _ => (findFirstPair F v).orElse (fun _ => findFirstPair F rest)
    else (findFirstPair F v).orElse (fun _ => findFirstPair F rest)

/-- The search state in which the decoder is left by a fragment containing
no pair. -/
def exitOf (F : List Char) : {t : JTag} → JVal t → DecoderState
  | _, .str us =>
    if decide (us = F.map .plain) || endsWithQuoteKey F us then afterKeyState
    else searchState 1
  | _, .num _ => searchState 0
  | _, .boolTrue => searchState 0
  | _, .boolFalse => searchState 0
  | _, .nullVal => searchState 0
  | _, .arr _ => searchState 0
  | _, .obj _ => searchState 0
  | _, .vnil => searchState 0
  | _, .vcons x .vnil => exitOf F x
  | _, .vcons _ (.vcons y r2) => exitOf F (JVal.vcons y r2)
  | _, .fnil => searchState 0
  | _, .fcons _ v .fnil => exitOf F v
  | _, .fcons _ _ (.fcons k2 v2 r2) => exitOf F (JVal.fcons k2 v2 r2)

lemma sufFullB_iff (F : List Char) (us : List EscUnit) :
    (decide (us = F.map .plain) || endsWithQuoteKey F us) = true
      ↔ SufFull F us := by
  rw [Bool.or_eq_true, decide_eq_true_iff]
  unfold SufFull endsWithQuoteKey
  constructor
  · rintro (h | h)
    · exact Or.inl h
    · right
      obtain ⟨pre, hpre⟩ := List.isSuffixOf_iff_suffix.mp h
      exact ⟨pre, hpre.symm⟩
  · rintro (h | ⟨pre, h⟩)
    · exact Or.inl h
    · right
      rw [List.isSuffixOf_iff_suffix]
      exact ⟨pre, h.symm⟩

/-- The three possible no-pair exit states. -/
lemma exitOf_cases (F : List Char) :
    ∀ {t : JTag} (j : JVal t),
      exitOf F j = searchState 0 ∨ exitOf F j = searchState 1
        ∨ exitOf F j = afterKeyState := by
  intro t j
  induction j with
  | str us =>
    unfold exitOf
    split
    · exact Or.inr (Or.inr rfl)
    · exact Or.inr (Or.inl rfl)
  | num ds => exact Or.inl rfl
  | boolTrue => exact Or.inl rfl
  | boolFalse => exact Or.inl rfl
  | nullVal => exact Or.inl rfl
  | arr xs ih => exact Or.inl rfl
  | obj fs ih => exact Or.inl rfl
  | vnil => exact Or.inl rfl
  | vcons x rest ihx ihrest =>
    cases rest with
    | vnil => exact ihx
    | vcons y r2 => exact ihrest
  | fnil => exact Or.inl rfl
  | fcons key v rest ihv ihrest =>
    cases rest with
    | fnil => exact ihv
    | fcons k2 v2 r2 => exact ihrest

/-! ### Composition machinery for capture runs -/

lemma deltaTexts_append (e1 e2 : List DecoderEvent) :
    deltaTexts (e1 ++ e2) = deltaTexts e1 ++ deltaTexts e2 := by
  induction e1 with
  | nil => rfl
  | cons e rest ih => cases e <;> simp [deltaTexts, ih]

lemma completeValues_append (e1 e2 : List DecoderEvent) :
    completeValues (e1 ++ e2) = completeValues e1 ++ completeValues e2 := by
  induction e1 with
  | nil => rfl
  | cons e rest ih => cases e <;> simp [completeValues, ih]

lemma joinedDeltas_append (e1 e2 : List DecoderEvent) :
    joinedDeltas (e1 ++ e2) = joinedDeltas e1 ++ joinedDeltas e2 := by
  unfold joinedDeltas
  rw [deltaTexts_append, List.flatten_append]

/-- A run that captures exactly `val`: the decoder ends in `Complete`, the
emitted deltas join to `val`, and `val` is the one completed value. -/
def FoundRun (F : List Char) (s0 : DecoderState) (T val : List Char) : Prop :=
  (processChunk F s0 T).1.stage = FieldStage.Complete
  ∧ joinedDeltas (processChunk F s0 T).2 = val
  ∧ completeValues (processChunk F s0 T).2 = [val]

/-- After a capture, further input is absorbed. -/
lemma FoundRun_append (F : List Char) (s0 : DecoderState)
    (A B val : List Char) (h : FoundRun F s0 A val) :
    FoundRun F s0 (A ++ B) val := by
  obtain ⟨h1, h2, h3⟩ := h
  unfold FoundRun
  rw [processChunk_append, processChunk_complete_noop F _ B h1]
  refine ⟨h1, ?_, ?_⟩
  · rw [joinedDeltas_append]
    show joinedDeltas (processChunk F s0 A).2 ++ joinedDeltas [] = val
    rw [h2, show joinedDeltas [] = [] from rfl, List.append_nil]
  · rw [completeValues_append]
    show completeValues (processChunk F s0 A).2 ++ completeValues [] = [val]
    rw [h3, show completeValues [] = [] from rfl, List.append_nil]

/-- An eventless prefix run composes with a capture of the remainder. -/
lemma FoundRun_prefix (F : List Char) (s0 s1 : DecoderState)
    (A B val : List Char) (hA : processChunk F s0 A = (s1, []))
    (h : FoundRun F s1 B val) : FoundRun F s0 (A ++ B) val := by
  obtain ⟨h1, h2, h3⟩ := h
  unfold FoundRun
  rw [processChunk_append, hA]
  exact ⟨h1, h2, h3⟩

/-- Structural characters: a comma or a closing bracket or brace. -/
def structuralB (c : Char) : Bool :=
  decide (c = ',') || decide (c = '}') || decide (c = ']')

lemma structural_facts (c : Char) (h : structuralB c = true) :
    isJsWhitespace c = false ∧ ¬ c = '"' ∧ ¬ c = ':' := by
  have h2 : c = ',' ∨ c = '}' ∨ c = ']' := by
    simpa [structuralB, Bool.or_eq_true, decide_eq_true_iff, or_assoc]
      using h
  rcases h2 with h2 | h2 | h2 <;> subst h2 <;> exact ⟨by decide, by decide, by decide⟩

/-- From any no-pair exit state, a structural character resets the search. -/
lemma exit_recover (F : List Char) (hF : GoodField F) (e : DecoderState)
    (he : e = searchState 0 ∨ e = searchState 1 ∨ e = afterKeyState)
    (c : Char) (hc : structuralB c = true) :
    processChar F e c = (searchState 0, []) := by
  obtain ⟨hws, hq, hcol⟩ := structural_facts c hc
  have hcF : c ∉ F := by
    intro hmem
    obtain ⟨g1, g2, g3, g4, g5, g6, g7, g8⟩ := hF.2 c hmem
    have h2 : c = ',' ∨ c = '}' ∨ c = ']' := by
      simpa [structuralB, Bool.or_eq_true, decide_eq_true_iff, or_assoc]
        using hc
    rcases h2 with h2 | h2 | h2
    · exact g3 h2
    · exact g6 h2
    · exact g8 h2
  have hmiss : ∀ k : Nat, ¬ (keyPattern F)[k]? = some c := by
    intro k hcon
    rcases keyPattern_mem F c k hcon with h | h
    · exact hq h
    · exact hcF h
  rcases he with he | he | he
  · subst he
    rw [searchStep_miss F 0 c (hmiss 0), if_neg hq]
  · subst he
    rw [searchStep_miss F 1 c (hmiss 1), if_neg hq]
  · subst he
    rw [afterKey_other F c hcol hws, if_neg hq]

lemma afterKeyState_ne_complete : ¬ afterKeyState.stage = FieldStage.Complete := by
  rw [show afterKeyState.stage = FieldStage.AfterKey from rfl]
  simp

lemma waitingState_ne_complete :
    ¬ waitingState.stage = FieldStage.Complete := by
  rw [show waitingState.stage = FieldStage.WaitingForStringStart from rfl]
  simp

lemma exit_ne_complete (e : DecoderState)
    (he : e = searchState 0 ∨ e = searchState 1 ∨ e = afterKeyState) :
    ¬ e.stage = FieldStage.Complete := by
  rcases he with he | he | he <;> subst he
  · exact searchState_ne_complete 0
  · exact searchState_ne_complete 1
  · exact afterKeyState_ne_complete

/-- From a no-pair exit state, a structural character followed by a chunk
behaves like the chunk from a fresh search. -/
lemma exit_recover_chunk (F : List Char) (hF : GoodField F)
    (e : DecoderState)
    (he : e = searchState 0 ∨ e = searchState 1 ∨ e = afterKeyState)
    (c : Char) (hc : structuralB c = true) (T : List Char) :
    processChunk F e (c :: T) = processChunk F (searchState 0) T := by
  rw [processChunk_cons F e c T (exit_ne_complete e he),
    exit_recover F hF e he c hc]
  rfl

/-- On a non-whitespace, non-quote head, waiting for the string start
behaves like a fresh search. -/
lemma waiting_chunk_eq (F : List Char) (c : Char) (T : List Char)
    (h1 : isJsWhitespace c = false) (h2 : ¬ c = '"') :
    processChunk F waitingState (c :: T)
      = processChunk F (searchState 0) (c :: T) := by
  rw [processChunk_cons F waitingState c T waitingState_ne_complete,
    waiting_other F c h1 h2,
    processChunk_cons F (searchState 0) c T (searchState_ne_complete 0),
    searchStep_zero F c h2]

lemma digit_facts (c : Char) (h : digitB c = true) :
    isJsWhitespace c = false ∧ ¬ c = '"' := by
  have hb : 48 ≤ c.toNat ∧ c.toNat ≤ 57 := by
    simpa [digitB] using h
  constructor
  · unfold isJsWhitespace
    simp only [decide_eq_false_iff_not]
    intro hcon
    rcases hcon with h1|h1|h1|h1|h1|h1|h1|h1|h1|h1|h1|h1|h1|h1|h1 <;> omega
  · intro hcon
    subst hcon
    revert hb
    decide

/-- Every non-string JSON value renders to a text whose head is neither
whitespace nor a quote. -/
lemma render_head (v : JVal .val) (hv : ValidB v = true)
    (hstr : ∀ us, ¬ v = .str us) :
    ∃ c tail, render v = c :: tail
      ∧ isJsWhitespace c = false ∧ ¬ c = '"' := by
  cases v with
  | str us => exact absurd rfl (hstr us)
  | num ds =>
    cases ds with
    | nil => simp [ValidB] at hv
    | cons d tail =>
      have hd : digitB d = true := by
        have := (Bool.and_eq_true _ _).mp hv |>.2
        exact (List.all_eq_true.mp this) d (by simp)
      obtain ⟨hws, hq⟩ := digit_facts d hd
      exact ⟨d, tail, rfl, hws, hq⟩
  | boolTrue => exact ⟨'t', _, rfl, by decide, by decide⟩
  | boolFalse => exact ⟨'f', _, rfl, by decide, by decide⟩
  | nullVal => exact ⟨'n', _, rfl, by decide, by decide⟩
  | arr xs => exact ⟨'[', _, rfl, by decide, by decide⟩
  | obj fs => exact ⟨'{', _, rfl, by decide, by decide⟩

/-- Eventless runs compose. -/
lemma chunkE (F : List Char) (s0 s1 s2 : DecoderState) (A B : List Char)
    (hA : processChunk F s0 A = (s1, []))
    (hB : processChunk F s1 B = (s2, [])) :
    processChunk F s0 (A ++ B) = (s2, []) := by
  rw [processChunk_append, hA]
  show ((processChunk F s1 B).1, [] ++ (processChunk F s1 B).2) = _
  rw [hB]
  rfl

/-- An eventless step followed by an eventless run. -/
lemma charE (F : List Char) (s0 s1 s2 : DecoderState) (c : Char)
    (rest : List Char) (h0 : ¬ s0.stage = FieldStage.Complete)
    (hc : processChar F s0 c = (s1, []))
    (hB : processChunk F s1 rest = (s2, [])) :
    processChunk F s0 (c :: rest) = (s2, []) := by
  rw [processChunk_cons F s0 c rest h0, hc, hB]
  rfl

/-- Characters outside the pattern never match at any index. -/
lemma notin_pattern (F : List Char) (c : Char)
    (hq : ¬ c = '"') (hcF : c ∉ F) :
    ∀ k : Nat, ¬ (keyPattern F)[k]? = some c := by
  intro k hcon
  rcases keyPattern_mem F c k hcon with h | h
  · exact hq h
  · exact hcF h

lemma colon_step_search (F : List Char) (hF : GoodField F) (k : Nat) :
    processChar F (searchState k) ':' = (searchState 0, []) := by
  have hcF : (':' : Char) ∉ F := by
    intro hmem
    exact (hF.2 ':' hmem).2.2.2.1 rfl
  rw [searchStep_miss F k ':' (notin_pattern F ':' (by decide) hcF k),
    if_neg (by decide : ¬ ((':' : Char) = '"'))]

/-- A rendered fragment containing no captured pair runs eventlessly from a
fresh search to its exit state. -/
lemma run_render_none (F : List Char) (hF : GoodField F) :
    ∀ {t : JTag} (j : JVal t), ValidB j = true → KeysOkB F j = true →
      findFirstPair F j = none →
      processChunk F (searchState 0) (render j) = (exitOf F j, []) := by
  intro t j
  induction j with
  | str us =>
    intro hv _ _
    have hok : ∀ u ∈ us, unitOkB u = true := by
      simpa [ValidB, List.all_eq_true] using hv
    show processChunk F (searchState 0) (strToken us) = _
    by_cases hsuf : SufFull F us
    · rw [strToken_run_suf F hF us hok hsuf]
      show (afterKeyState, []) = (exitOf F (JVal.str us), [])
      rw [show exitOf F (JVal.str us)
          = (if decide (us = F.map .plain) || endsWithQuoteKey F us
             then afterKeyState else searchState 1) from rfl,
        if_pos ((sufFullB_iff F us).mpr hsuf)]
    · rw [strToken_run_notsuf F hF us hok hsuf]
      show (searchState 1, []) = (exitOf F (JVal.str us), [])
      rw [show exitOf F (JVal.str us)
          = (if decide (us = F.map .plain) || endsWithQuoteKey F us
             then afterKeyState else searchState 1) from rfl,
        if_neg (fun hcon => hsuf ((sufFullB_iff F us).mp hcon))]
  | num ds =>
    intro hv _ _
    show processChunk F (searchState 0) ds = (searchState 0, [])
    apply run_no_quote
    intro c hc
    have hall : ∀ c ∈ ds, digitB c = true := by
      have := (Bool.and_eq_true _ _).mp hv |>.2
      exact List.all_eq_true.mp this
    exact (digit_facts c (hall c hc)).2
  | boolTrue =>
    intro _ _ _
    exact run_no_quote F ['t', 'r', 'u', 'e'] (by decide)
  | boolFalse =>
    intro _ _ _
    exact run_no_quote F ['f', 'a', 'l', 's', 'e'] (by decide)
  | nullVal =>
    intro _ _ _
    exact run_no_quote F ['n', 'u', 'l', 'l'] (by decide)
  | arr xs ih =>
    intro hv hk hn
    show processChunk F (searchState 0) ('[' :: (render xs ++ [']']))
      = (searchState 0, [])
    refine charE F _ (searchState 0) _ '[' _ (searchState_ne_complete 0)
      (searchStep_zero F '[' (by decide)) ?_
    refine chunkE F _ (exitOf F xs) _ (render xs) [']'] (ih hv hk hn) ?_
    rw [show ([']'] : List Char) = ']' :: [] from rfl,
      exit_recover_chunk F hF (exitOf F xs) (exitOf_cases F xs) ']'
        (by decide) []]
    rfl
  | obj fs ih =>
    intro hv hk hn
    show processChunk F (searchState 0) ('{' :: (render fs ++ ['}']))
      = (searchState 0, [])
    refine charE F _ (searchState 0) _ '{' _ (searchState_ne_complete 0)
      (searchStep_zero F '{' (by decide)) ?_
    refine chunkE F _ (exitOf F fs) _ (render fs) ['}'] (ih hv hk hn) ?_
    rw [show (['}'] : List Char) = '}' :: [] from rfl,
      exit_recover_chunk F hF (exitOf F fs) (exitOf_cases F fs) '}'
        (by decide) []]
    rfl
  | vnil =>
    intro _ _ _
    rfl
  | vcons x rest ihx ihrest =>
    intro hv hk hn
    have hv2 := (Bool.and_eq_true _ _).mp hv
    have hk2 := (Bool.and_eq_true _ _).mp hk
    have hnx : findFirstPair F x = none := by
      rcases hfx : findFirstPair F x with _ | a
      · rfl
      · rw [show findFirstPair F (JVal.vcons x rest)
            = (findFirstPair F x).orElse (fun _ => findFirstPair F rest)
            from rfl, hfx] at hn
        simp [Option.orElse] at hn
    have hnrest : findFirstPair F rest = none := by
      rw [show findFirstPair F (JVal.vcons x rest)
          = (findFirstPair F x).orElse (fun _ => findFirstPair F rest)
          from rfl, hnx] at hn
      simpa [Option.orElse] using hn
    cases rest with
    | vnil =>
      show processChunk F (searchState 0) (render x) = (exitOf F x, [])
      exact ihx hv2.1 hk2.1 hnx
    | vcons y r2 =>
      show processChunk F (searchState 0)
          (render x ++ ',' :: render (JVal.vcons y r2))
        = (exitOf F (JVal.vcons y r2), [])
      refine chunkE F _ (exitOf F x) _ (render x) _ (ihx hv2.1 hk2.1 hnx) ?_
      rw [exit_recover_chunk F hF (exitOf F x) (exitOf_cases F x) ','
        (by decide) (render (JVal.vcons y r2))]
      exact ihrest hv2.2 hk2.2 hnrest
  | fnil =>
    intro _ _ _
    rfl
  | fcons key v rest ihv ihrest =>
    intro hv hk hn
    have hv2 := (Bool.and_eq_true _ _).mp hv
    have hv3 := (Bool.and_eq_true _ _).mp hv2.1
    have hkeyok : ∀ u ∈ key, unitOkB u = true := List.all_eq_true.mp hv3.1
    have hk2 := (Bool.and_eq_true _ _).mp hk
    have hk3 := (Bool.and_eq_true _ _).mp hk2.1
    have hkq : endsWithQuoteKey F key = false := by
      simpa using hk3.1
    by_cases hkey : key = F.map EscUnit.plain
    · have hnostr : ∀ us, ¬ v = JVal.str us := by
        intro us hcon
        subst hcon
        rw [show findFirstPair F (JVal.fcons key (JVal.str us) rest)
            = (if key = F.map EscUnit.plain
               then some (decodeUnits us)
               else (findFirstPair F (JVal.str us)).orElse
                 (fun _ => findFirstPair F rest)) from rfl,
          if_pos hkey] at hn
        exact Option.noConfusion hn
      have hfsplit : findFirstPair F (JVal.fcons key v rest)
          = (findFirstPair F v).orElse (fun _ => findFirstPair F rest) := by
        cases v with
        | str us => exact absurd rfl (hnostr us)
        | num ds => exact ite_self _
        | boolTrue => exact ite_self _
        | boolFalse => exact ite_self _
        | nullVal => exact ite_self _
        | arr xs => exact ite_self _
        | obj fs => exact ite_self _
      have hnv : findFirstPair F v = none := by
        rcases hfx : findFirstPair F v with _ | a
        · rfl
        · rw [hfsplit, hfx] at hn
          simp [Option.orElse] at hn
      have hnrest : findFirstPair F rest = none := by
        rw [hfsplit, hnv] at hn
        simpa [Option.orElse] using hn
      have hkeyrun : processChunk F (searchState 0) (strToken key)
          = (afterKeyState, []) :=
        strToken_run_suf F hF key hkeyok (Or.inl hkey)
      obtain ⟨c0, tail, hrv, hws0, hq0⟩ := render_head v hv3.2 hnostr
      have hvrun : processChunk F waitingState (render v)
          = (exitOf F v, []) := by
        rw [hrv, waiting_chunk_eq F c0 tail hws0 hq0, ← hrv]
        exact ihv hv3.2 hk3.2 hnv
      cases rest with
      | fnil =>
        show processChunk F (searchState 0)
            (strToken key ++ ':' :: render v) = (exitOf F v, [])
        refine chunkE F _ afterKeyState _ (strToken key) _ hkeyrun ?_
        refine charE F _ waitingState _ ':' _ afterKeyState_ne_complete
          (afterKey_colon F) ?_
        exact hvrun
      | fcons k2 v2 r2 =>
        rw [show render (JVal.fcons key v (JVal.fcons k2 v2 r2))
            = strToken key ++ ((':' :: render v)
              ++ (',' :: render (JVal.fcons k2 v2 r2))) from by
            simp [render],
          show exitOf F (JVal.fcons key v (JVal.fcons k2 v2 r2))
            = exitOf F (JVal.fcons k2 v2 r2) from by
            simp [exitOf]]
        refine chunkE F _ afterKeyState _ (strToken key) _ hkeyrun ?_
        rw [show (':' :: render v) ++ (',' :: render (JVal.fcons k2 v2 r2))
            = ':' :: (render v ++ (',' :: render (JVal.fcons k2 v2 r2)))
            from rfl]
        refine charE F _ waitingState _ ':' _ afterKeyState_ne_complete
          (afterKey_colon F) ?_
        refine chunkE F _ (exitOf F v) _ (render v) _ hvrun ?_
        rw [exit_recover_chunk F hF (exitOf F v) (exitOf_cases F v) ','
          (by decide) (render (JVal.fcons k2 v2 r2))]
        exact ihrest hv2.2 hk2.2 hnrest
    · have hfsplit : findFirstPair F (JVal.fcons key v rest)
          = (findFirstPair F v).orElse (fun _ => findFirstPair F rest) := by
        cases v with
        | str us =>
          show (if key = F.map EscUnit.plain then some (decodeUnits us)
            else (findFirstPair F (JVal.str us)).orElse
              (fun _ => findFirstPair F rest)) = _
          rw [if_neg hkey]
        | num ds => exact ite_self _
        | boolTrue => exact ite_self _
        | boolFalse => exact ite_self _
        | nullVal => exact ite_self _
        | arr xs => exact ite_self _
        | obj fs => exact ite_self _
      have hnv : findFirstPair F v = none := by
        rcases hfx : findFirstPair F v with _ | a
        · rfl
        · rw [hfsplit, hfx] at hn
          simp [Option.orElse] at hn
      have hnrest : findFirstPair F rest = none := by
        rw [hfsplit, hnv] at hn
        simpa [Option.orElse] using hn
      have hnsuf : ¬ SufFull F key := by
        intro hcon
        have := (sufFullB_iff F key).mpr hcon
        rw [Bool.or_eq_true, decide_eq_true_iff, hkq] at this
        rcases this with h | h
        · exact hkey h
        · exact absurd h (by decide)
      have hkeyrun : processChunk F (searchState 0) (strToken key)
          = (searchState 1, []) :=
        strToken_run_notsuf F hF key hkeyok hnsuf
      have hvrun : processChunk F (searchState 0) (render v)
          = (exitOf F v, []) := ihv hv3.2 hk3.2 hnv
      cases rest with
      | fnil =>
        show processChunk F (searchState 0)
            (strToken key ++ ':' :: render v) = (exitOf F v, [])
        refine chunkE F _ (searchState 1) _ (strToken key) _ hkeyrun ?_
        refine charE F _ (searchState 0) _ ':' _ (searchState_ne_complete 1)
          (colon_step_search F hF 1) ?_
        exact hvrun
      | fcons k2 v2 r2 =>
        rw [show render (JVal.fcons key v (JVal.fcons k2 v2 r2))
            = strToken key ++ ((':' :: render v)
              ++ (',' :: render (JVal.fcons k2 v2 r2))) from by
            simp [render],
          show exitOf F (JVal.fcons key v (JVal.fcons k2 v2 r2))
            = exitOf F (JVal.fcons k2 v2 r2) from by
            simp [exitOf]]
        refine chunkE F _ (searchState 1) _ (strToken key) _ hkeyrun ?_
        rw [show (':' :: render v) ++ (',' :: render (JVal.fcons k2 v2 r2))
            = ':' :: (render v ++ (',' :: render (JVal.fcons k2 v2 r2)))
            from rfl]
        refine charE F _ (searchState 0) _ ':' _ (searchState_ne_complete 1)
          (colon_step_search F hF 1) ?_
        refine chunkE F _ (exitOf F v) _ (render v) _ hvrun ?_
        rw [exit_recover_chunk F hF (exitOf F v) (exitOf_cases F v) ','
          (by decide) (render (JVal.fcons k2 v2 r2))]
        exact ihrest hv2.2 hk2.2 hnrest

/-- An eventless step followed by a capture of the remainder. -/
lemma FoundRun_cons (F : List Char) (s0 s1 : DecoderState) (c : Char)
    (T val : List Char) (h0 : ¬ s0.stage = FieldStage.Complete)
    (hc : processChar F s0 c = (s1, []))
    (h : FoundRun F s1 T val) : FoundRun F s0 (c :: T) val := by
  obtain ⟨h1, h2, h3⟩ := h
  unfold FoundRun
  rw [processChunk_cons F s0 c T h0, hc]
  exact ⟨h1, h2, h3⟩

/-- An eventless single-character chunk. -/
lemma stepE (F : List Char) (s0 s1 : DecoderState) (c : Char)
    (h0 : ¬ s0.stage = FieldStage.Complete)
    (hc : processChar F s0 c = (s1, [])) :
    processChunk F s0 [c] = (s1, []) :=
  charE F s0 s1 s1 c [] h0 hc rfl

/-- The whole string token of the value, from the waiting state: the
decoder collects the body and completes with its decoded text. -/
lemma strValue_capture (F : List Char) (us : List EscUnit)
    (hok : ∀ u ∈ us, unitOkB u = true) :
    FoundRun F waitingState (strToken us) (decodeUnits us) := by
  have hrun : processChunk F waitingState (strToken us)
      = (completeAndClear (collState us),
         collectEvents F [] us ++ [.complete F (decodeUnits us)]) := by
    unfold strToken
    rw [List.cons_append,
      processChunk_cons F waitingState '"' (escOf us ++ ['"'])
        waitingState_ne_complete,
      waiting_quote F, valueToken_run F us hok]
    rfl
  unfold FoundRun
  rw [hrun]
  refine ⟨completeAndClear_stage _, ?_, ?_⟩
  · rw [joinedDeltas_append, collectEvents_joined F us [],
      show joinedDeltas [DecoderEvent.complete F (decodeUnits us)] = []
        from rfl, List.append_nil]
  · rw [completeValues_append, collectEvents_completes F us []]
    rfl

/-- A rendered fragment whose first pair carries `val` captures exactly
`val` from a fresh search. -/
lemma run_render_found (F : List Char) (hF : GoodField F) :
    ∀ {t : JTag} (j : JVal t) (val : List Char), ValidB j = true →
      KeysOkB F j = true → findFirstPair F j = some val →
      FoundRun F (searchState 0) (render j) val := by
  intro t j
  induction j with
  | str us =>
    intro val _ _ hfp
    exact Option.noConfusion hfp
  | num ds =>
    intro val _ _ hfp
    exact Option.noConfusion hfp
  | boolTrue =>
    intro val _ _ hfp
    exact Option.noConfusion hfp
  | boolFalse =>
    intro val _ _ hfp
    exact Option.noConfusion hfp
  | nullVal =>
    intro val _ _ hfp
    exact Option.noConfusion hfp
  | arr xs ih =>
    intro val hv hk hfp
    show FoundRun F (searchState 0) ('[' :: (render xs ++ [']'])) val
    refine FoundRun_cons F _ (searchState 0) '[' _ val
      (searchState_ne_complete 0) (searchStep_zero F '[' (by decide)) ?_
    exact FoundRun_append F _ (render xs) [']'] val (ih val hv hk hfp)
  | obj fs ih =>
    intro val hv hk hfp
    show FoundRun F (searchState 0) ('{' :: (render fs ++ ['}'])) val
    refine FoundRun_cons F _ (searchState 0) '{' _ val
      (searchState_ne_complete 0) (searchStep_zero F '{' (by decide)) ?_
    exact FoundRun_append F _ (render fs) ['}'] val (ih val hv hk hfp)
  | vnil =>
    intro val _ _ hfp
    exact Option.noConfusion hfp
  | vcons x rest ihx ihrest =>
    intro val hv hk hfp
    have hv2 := (Bool.and_eq_true _ _).mp hv
    have hk2 := (Bool.and_eq_true _ _).mp hk
    rcases hfx : findFirstPair F x with _ | a
    · have hrest : findFirstPair F rest = some val := by
        rw [show findFirstPair F (JVal.vcons x rest)
            = (findFirstPair F x).orElse (fun _ => findFirstPair F rest)
            from rfl, hfx] at hfp
        simpa [Option.orElse] using hfp
      cases rest with
      | vnil => exact Option.noConfusion hrest
      | vcons y r2 =>
        show FoundRun F (searchState 0)
          (render x ++ ',' :: render (JVal.vcons y r2)) val
        refine FoundRun_prefix F _ (exitOf F x) (render x) _ val
          (run_render_none F hF x hv2.1 hk2.1 hfx) ?_
        refine FoundRun_cons F _ (searchState 0) ',' _ val
          (exit_ne_complete _ (exitOf_cases F x))
          (exit_recover F hF _ (exitOf_cases F x) ',' (by decide)) ?_
        exact ihrest val hv2.2 hk2.2 hrest
    · have hxval : findFirstPair F x = some val := by
        rw [show findFirstPair F (JVal.vcons x rest)
            = (findFirstPair F x).orElse (fun _ => findFirstPair F rest)
            from rfl, hfx] at hfp
        rw [hfx]
        simpa [Option.orElse] using hfp
      have hfound := ihx val hv2.1 hk2.1 hxval
      cases rest with
      | vnil =>
        show FoundRun F (searchState 0) (render x) val
        exact hfound
      | vcons y r2 =>
        show FoundRun F (searchState 0)
          (render x ++ ',' :: render (JVal.vcons y r2)) val
        exact FoundRun_append F _ (render x) _ val hfound
  | fnil =>
    intro val _ _ hfp
    exact Option.noConfusion hfp
  | fcons key v rest ihv ihrest =>
    intro val hv hk hfp
    have hv2 := (Bool.and_eq_true _ _).mp hv
    have hv3 := (Bool.and_eq_true _ _).mp hv2.1
    have hkeyok : ∀ u ∈ key, unitOkB u = true := List.all_eq_true.mp hv3.1
    have hk2 := (Bool.and_eq_true _ _).mp hk
    have hk3 := (Bool.and_eq_true _ _).mp hk2.1
    have hkq : endsWithQuoteKey F key = false := by
      simpa using hk3.1
    by_cases hkey : key = F.map EscUnit.plain
    · have hkeyrun : processChunk F (searchState 0) (strToken key)
          = (afterKeyState, []) :=
        strToken_run_suf F hF key hkeyok (Or.inl hkey)
      by_cases hstr : ∃ us, v = JVal.str us
      · obtain ⟨us, hus⟩ := hstr
        subst hus
        have hval : decodeUnits us = val := by
          rw [show findFirstPair F (JVal.fcons key (JVal.str us) rest)
              = (if key = F.map EscUnit.plain
                 then some (decodeUnits us)
                 else (findFirstPair F (JVal.str us)).orElse
                   (fun _ => findFirstPair F rest)) from rfl,
            if_pos hkey] at hfp
          exact Option.some.inj hfp
        have hokus : ∀ u ∈ us, unitOkB u = true := by
          have := hv3.2
          simpa [ValidB, List.all_eq_true] using this
        have hcap : FoundRun F waitingState (strToken us) val := by
          rw [← hval]
          exact strValue_capture F us hokus
        cases rest with
        | fnil =>
          show FoundRun F (searchState 0)
            (strToken key ++ ':' :: strToken us) val
          refine FoundRun_prefix F _ afterKeyState (strToken key) _ val
            hkeyrun ?_
          exact FoundRun_cons F _ waitingState ':' _ val
            afterKeyState_ne_complete (afterKey_colon F) hcap
        | fcons k2 v2 r2 =>
          rw [show render (JVal.fcons key (JVal.str us) (JVal.fcons k2 v2 r2))
              = strToken key ++ ((':' :: strToken us)
                ++ (',' :: render (JVal.fcons k2 v2 r2))) from by
              simp [render]]
          refine FoundRun_prefix F _ afterKeyState (strToken key) _ val
            hkeyrun ?_
          refine FoundRun_append F _ (':' :: strToken us) _ val ?_
          exact FoundRun_cons F _ waitingState ':' _ val
            afterKeyState_ne_complete (afterKey_colon F) hcap
      · have hnostr : ∀ us, ¬ v = JVal.str us := fun us h => hstr ⟨us, h⟩
        have hfsplit : findFirstPair F (JVal.fcons key v rest)
            = (findFirstPair F v).orElse (fun _ => findFirstPair F rest) := by
          cases v with
          | str us => exact absurd rfl (hnostr us)
          | num ds => exact ite_self _
          | boolTrue => exact ite_self _
          | boolFalse => exact ite_self _
          | nullVal => exact ite_self _
          | arr xs => exact ite_self _
          | obj fs => exact ite_self _
        obtain ⟨c0, tail, hrv, hws0, hq0⟩ := render_head v hv3.2 hnostr
        rcases hfx : findFirstPair F v with _ | a
        · have hrest : findFirstPair F rest = some val := by
            rw [hfsplit, hfx] at hfp
            simpa [Option.orElse] using hfp
          have hvrun : processChunk F waitingState (render v)
              = (exitOf F v, []) := by
            rw [hrv, waiting_chunk_eq F c0 tail hws0 hq0, ← hrv]
            exact run_render_none F hF v hv3.2 hk3.2 hfx
          cases rest with
          | fnil => exact Option.noConfusion hrest
          | fcons k2 v2 r2 =>
            rw [show render (JVal.fcons key v (JVal.fcons k2 v2 r2))
                = strToken key ++ ((':' :: render v)
                  ++ (',' :: render (JVal.fcons k2 v2 r2))) from by
                simp [render]]
            refine FoundRun_prefix F _ afterKeyState (strToken key) _ val
              hkeyrun ?_
            refine FoundRun_prefix F _ (exitOf F v) (':' :: render v) _ val
              (charE F _ waitingState _ ':' _ afterKeyState_ne_complete
                (afterKey_colon F) hvrun) ?_
            refine FoundRun_cons F _ (searchState 0) ',' _ val
              (exit_ne_complete _ (exitOf_cases F v))
              (exit_recover F hF _ (exitOf_cases F v) ',' (by decide)) ?_
            exact ihrest val hv2.2 hk2.2 hrest
        · have hvval : findFirstPair F v = some val := by
            rw [hfsplit, hfx] at hfp
            rw [hfx]
            simpa [Option.orElse] using hfp
          have hcapv : FoundRun F waitingState (render v) val := by
            have h0 := ihv val hv3.2 hk3.2 hvval
            unfold FoundRun at h0 ⊢
            rw [hrv, waiting_chunk_eq F c0 tail hws0 hq0, ← hrv]
            exact h0
          cases rest with
          | fnil =>
            show FoundRun F (searchState 0)
              (strToken key ++ ':' :: render v) val
            refine FoundRun_prefix F _ afterKeyState (strToken key) _ val
              hkeyrun ?_
            exact FoundRun_cons F _ waitingState ':' _ val
              afterKeyState_ne_complete (afterKey_colon F) hcapv
          | fcons k2 v2 r2 =>
            rw [show render (JVal.fcons key v (JVal.fcons k2 v2 r2))
                = strToken key ++ ((':' :: render v)
                  ++ (',' :: render (JVal.fcons k2 v2 r2))) from by
                simp [render]]
            refine FoundRun_prefix F _ afterKeyState (strToken key) _ val
              hkeyrun ?_
            refine FoundRun_append F _ (':' :: render v) _ val ?_
            exact FoundRun_cons F _ waitingState ':' _ val
              afterKeyState_ne_complete (afterKey_colon F) hcapv
    · have hnsuf : ¬ SufFull F key := by
        intro hcon
        have := (sufFullB_iff F key).mpr hcon
        rw [Bool.or_eq_true, decide_eq_true_iff, hkq] at this
        rcases this with h | h
        · exact hkey h
        · exact absurd h (by decide)
      have hkeyrun : processChunk F (searchState 0) (strToken key)
          = (searchState 1, []) :=
        strToken_run_notsuf F hF key hkeyok hnsuf
      have hfsplit : findFirstPair F (JVal.fcons key v rest)
          = (findFirstPair F v).orElse (fun _ => findFirstPair F rest) := by
        cases v with
        | str us =>
          show (if key = F.map EscUnit.plain then some (decodeUnits us)
            else (findFirstPair F (JVal.str us)).orElse
              (fun _ => findFirstPair F rest)) = _
          rw [if_neg hkey]
        | num ds => exact ite_self _
        | boolTrue => exact ite_self _
        | boolFalse => exact ite_self _
        | nullVal => exact ite_self _
        | arr xs => exact ite_self _
        | obj fs => exact ite_self _
      rcases hfx : findFirstPair F v with _ | a
      · have hrest : findFirstPair F rest = some val := by
          rw [hfsplit, hfx] at hfp
          simpa [Option.orElse] using hfp
        have hvrun : processChunk F (searchState 0) (render v)
            = (exitOf F v, []) := run_render_none F hF v hv3.2 hk3.2 hfx
        cases rest with
        | fnil => exact Option.noConfusion hrest
        | fcons k2 v2 r2 =>
          rw [show render (JVal.fcons key v (JVal.fcons k2 v2 r2))
              = strToken key ++ ((':' :: render v)
                ++ (',' :: render (JVal.fcons k2 v2 r2))) from by
              simp [render]]
          refine FoundRun_prefix F _ (searchState 1) (strToken key) _ val
            hkeyrun ?_
          refine FoundRun_prefix F _ (exitOf F v) (':' :: render v) _ val
            (charE F _ (searchState 0) _ ':' _ (searchState_ne_complete 1)
              (colon_step_search F hF 1) hvrun) ?_
          refine FoundRun_cons F _ (searchState 0) ',' _ val
            (exit_ne_complete _ (exitOf_cases F v))
            (exit_recover F hF _ (exitOf_cases F v) ',' (by decide)) ?_
          exact ihrest val hv2.2 hk2.2 hrest
      · have hvval : findFirstPair F v = some val := by
          rw [hfsplit, hfx] at hfp
          rw [hfx]
          simpa [Option.orElse] using hfp
        have hcapv : FoundRun F (searchState 0) (render v) val :=
          ihv val hv3.2 hk3.2 hvval
        cases rest with
        | fnil =>
          show FoundRun F (searchState 0)
            (strToken key ++ ':' :: render v) val
          refine FoundRun_prefix F _ (searchState 1) (strToken key) _ val
            hkeyrun ?_
          exact FoundRun_cons F _ (searchState 0) ':' _ val
            (searchState_ne_complete 1) (colon_step_search F hF 1) hcapv
        | fcons k2 v2 r2 =>
          rw [show render (JVal.fcons key v (JVal.fcons k2 v2 r2))
              = strToken key ++ ((':' :: render v)
                ++ (',' :: render (JVal.fcons k2 v2 r2))) from by
              simp [render]]
          refine FoundRun_prefix F _ (searchState 1) (strToken key) _ val
            hkeyrun ?_
          refine FoundRun_append F _ (':' :: render v) _ val ?_
          exact FoundRun_cons F _ (searchState 0) ':' _ val
            (searchState_ne_complete 1) (colon_step_search F hF 1) hcapv

/-! ### Claim C1 — what the decoder streams out of a JSON text -/

/-- The C1 counterexample text: the first key of the object is `a\"F` —
its raw characters end with `\"F` — and its value is `v`; the second,
well-formed `"F":"real"` pair carries `real`. -/
def c1Json : JVal .val :=
  .obj (.fcons [.plain 'a', .esc '"', .plain 'F'] (.str [.plain 'v'])
    (.fcons [.plain 'F']
      (.str [.plain 'r', .plain 'e', .plain 'a', .plain 'l']) .fnil))

/-- Counterexample to claim C1 as stated: the rendered text
`{"a\"F":"v","F":"real"}` is a well-formed JSON text containing the
well-formed pair `"F":"real"`, yet the decoder for `F` — fed the whole text
as one chunk — joins its deltas to `v` and completes with `v`, not `real`:
the byte-level scanner mistakes the tail of the first key for the pattern
`"F"`. -/
theorem embedded_pattern_key_captures_wrong_value :
    ValidB c1Json = true
    ∧ render c1Json
      = ['{', '"', 'a', '\\', '"', 'F', '"', ':', '"', 'v', '"', ',',
         '"', 'F', '"', ':', '"', 'r', 'e', 'a', 'l', '"', '}']
    ∧ findFirstPair ['F'] c1Json = some ['r', 'e', 'a', 'l']
    ∧ joinedDeltas
        (processChunks ['F'] initialDecoderState [render c1Json]).2 = ['v']
    ∧ completeValues
        (processChunks ['F'] initialDecoderState [render c1Json]).2 = [['v']]
    ∧ ¬ joinedDeltas
        (processChunks ['F'] initialDecoderState [render c1Json]).2
      = ['r', 'e', 'a', 'l'] := by
  refine ⟨by decide, by decide, by decide, by decide, by decide, by decide⟩

/-- Claim C1 as amended: for a field name free of quotes, backslashes and
structural characters, and a well-formed compact JSON text none of whose
keys ends with an escaped quote followed by the field name, every chunking
of the text makes the decoder stream exactly the first `"F":"value"` pair:
the deltas join to the decoded value and exactly one completion carries it. -/
theorem decoder_streams_first_clean_pair (F : List Char) {t : JTag}
    (j : JVal t) (val : List Char) (chunks : List (List Char))
    (hF : GoodField F) (hv : ValidB j = true) (hk : KeysOkB F j = true)
    (hfp : findFirstPair F j = some val)
    (hsplit : chunks.flatten = render j) :
    (processChunks F initialDecoderState chunks).1.stage
        = FieldStage.Complete
    ∧ joinedDeltas (processChunks F initialDecoderState chunks).2 = val
    ∧ completeValues (processChunks F initialDecoderState chunks).2
        = [val] := by
  have h := run_render_found F hF j val hv hk hfp
  unfold FoundRun at h
  rw [processChunks_eq_flatten, hsplit, initial_eq_searchState]
  exact h

/-- Witness for the amended C1 at the split `['{"x":"ab\', '"cd"}']` of
`{"x":"ab\"cd"}` for field `x`: the deltas join to `ab"cd` and the one
completion carries it. -/
theorem decoder_streams_first_clean_pair_witness :
    joinedDeltas (processChunks ['x'] initialDecoderState
        [['{', '"', 'x', '"', ':', '"', 'a', 'b', '\\'],
         ['"', 'c', 'd', '"', '}']]).2
      = ['a', 'b', '"', 'c', 'd']
    ∧ completeValues (processChunks ['x'] initialDecoderState
        [['{', '"', 'x', '"', ':', '"', 'a', 'b', '\\'],
         ['"', 'c', 'd', '"', '}']]).2
      = [['a', 'b', '"', 'c', 'd']] := by
  have h := decoder_streams_first_clean_pair ['x']
    (JVal.obj (JVal.fcons [EscUnit.plain 'x']
      (JVal.str [EscUnit.plain 'a', EscUnit.plain 'b', EscUnit.esc '"',
        EscUnit.plain 'c', EscUnit.plain 'd']) JVal.fnil))
    ['a', 'b', '"', 'c', 'd']
    [['{', '"', 'x', '"', ':', '"', 'a', 'b', '\\'],
     ['"', 'c', 'd', '"', '}']]
    ⟨by decide, by decide⟩ (by decide) (by decide) (by decide) (by decide)
  exact ⟨h.2.1, h.2.2⟩

end MagiTerm
